import Mathlib

/-!
# Verification of the snake-in-the-box search core

Shallow embedding of the Python package `snake_in_box` (modules
`core/hypercube.py`, `core/transitions.py`, `core/validation.py`,
`utils/canonical.py`, `core/snake_node.py`, `search/fitness.py`,
`search/bfs_pruned.py`, `search/priming.py`) together with proofs of the
behavioural properties stated in the specification.

Machine integers: Python integers are unbounded, so all arithmetic is on `Nat`;
the 64-bit words of `HypercubeBitmap` stay below `2 ^ 64` because every stored
value is a bitwise OR of `1 <<< b` with `b < 64` (captured by a well-formedness
invariant rather than by a wrapped type).  Python exceptions are modelled with
`Except`; unbounded `while` loops are modelled with an explicit fuel parameter.
-/

/-! ## Population count

`hypercube.py` counts set bits with `bin(word).count('1')`, and
`validation.py` computes Hamming distances the same way.  `popcountAux` is a
fuel-indexed version of the usual binary recursion (the fuel makes the
definition structurally recursive, hence evaluable by the kernel); `popcount n`
instantiates the fuel with `n` itself, which always suffices. -/

def popcountAux : Nat → Nat → Nat
  | 0, _ => 0
  | f + 1, n => if n = 0 then 0 else n % 2 + popcountAux f (n / 2)

def popcount (n : Nat) : Nat :=
  popcountAux n n

/-- Python `hamming_distance` from `core/validation.py`: popcount of the XOR. -/
def hamming_distance (a b : Nat) : Nat :=
  popcount (a ^^^ b)

/-! ## `core/hypercube.py` — `HypercubeBitmap`

The bitmap is an array of 64-bit words, one bit per vertex of `Q_n`
(`0` = free, `1` = occupied/prohibited), modelled as a `List Nat` of words. -/

/-- Number of 64-bit words: `(num_vertices + 63) // 64` in `HypercubeBitmap.__init__`. -/
def bitmapNumWords (dimension : Nat) : Nat :=
  (2 ^ dimension + 63) / 64

/-- Freshly allocated bitmap: all words zero. -/
def freshBitmap (dimension : Nat) : List Nat :=
  List.replicate (bitmapNumWords dimension) 0

/-- Python `HypercubeBitmap.set_bit`: OR the word `vertex >> 6` with `1 << (vertex & 63)`. -/
def setBit (ws : List Nat) (vertex : Nat) : List Nat :=
  ws.set (vertex / 64) (ws.getD (vertex / 64) 0 ||| 1 <<< (vertex % 64))

/-- Python `HypercubeBitmap.get_bit`: test bit `vertex & 63` of word `vertex >> 6`. -/
def getBit (ws : List Nat) (vertex : Nat) : Bool :=
  (ws.getD (vertex / 64) 0).testBit (vertex % 64)

/-- Python `HypercubeBitmap.count_unmarked`: per-vertex loop counting zero bits. -/
def count_unmarked (dimension : Nat) (ws : List Nat) : Nat :=
  ((List.range (2 ^ dimension)).filter (fun v => ! getBit ws v)).length

/-- Python `HypercubeBitmap.count_unmarked_fast`: `num_vertices` minus the total
population count of all words. -/
def count_unmarked_fast (dimension : Nat) (ws : List Nat) : Nat :=
  2 ^ dimension - (ws.map popcount).sum

/-! ## `core/transitions.py` — transition/vertex codec -/

inductive CodecError where
  /-- Python `vertex_to_transition`: consecutive vertices `i` and `i+1` identical. -/
  | duplicateVertex (i : Nat)
  /-- Python `vertex_to_transition`: consecutive vertices `i` and `i+1` differ in several bits. -/
  | multiBitTransition (i : Nat)
  /-- Python `transition_to_vertex`: transition value outside `[0, dimension)`. -/
  | transitionOutOfRange (t : Nat)
deriving DecidableEq

/-- Pairwise loop of `vertex_to_transition`, carrying the index `i` used in the
error messages.  The recorded transition is `log2` of the XOR, computed in the
source as `xor_result.bit_length() - 1`, i.e. `Nat.size x - 1`. -/
def v2tAux (i : Nat) : List Nat → Except CodecError (List Nat)
  | a :: b :: rest =>
    let x := a ^^^ b
    if x = 0 then .error (.duplicateVertex i)
    else if x &&& (x - 1) ≠ 0 then .error (.multiBitTransition i)
    else (v2tAux (i + 1) (b :: rest)).map (fun ts => (Nat.size x - 1) :: ts)
  | _ => .ok []

/-- Python `vertex_to_transition` from `core/transitions.py`. -/
def vertex_to_transition (vs : List Nat) : Except CodecError (List Nat) :=
  if vs.length < 2 then .ok [] else v2tAux 0 vs

/-- Loop of `transition_to_vertex`: validate each transition, flip the bit,
collect the vertices after the start vertex. -/
def t2vAux (dimension : Nat) (cur : Nat) : List Nat → Except CodecError (List Nat)
  | [] => .ok []
  | t :: rest =>
    if t < dimension then
      (t2vAux dimension (cur ^^^ 1 <<< t) rest).map (fun vs => (cur ^^^ 1 <<< t) :: vs)
    else .error (.transitionOutOfRange t)

/-- Python `transition_to_vertex` from `core/transitions.py` (default `start_vertex = 0`). -/
def transition_to_vertex (ts : List Nat) (dimension : Nat) (start_vertex : Nat := 0) :
    Except CodecError (List Nat) :=
  (t2vAux dimension start_vertex ts).map (fun vs => start_vertex :: vs)

/-- Python `compute_current_vertex`: fold the transitions from the origin by XOR. -/
def compute_current_vertex (ts : List Nat) : Nat :=
  ts.foldl (fun v t => v ^^^ 1 <<< t) 0

/-! ## `core/validation.py` — snake validator

The source returns `(bool, message_string)`; the message is modelled by a
structured reason that carries exactly the data interpolated into the string
(the offending index pair and the measured Hamming distance). -/

inductive SnakeReason where
  /-- Message "Valid snake (trivial case)" for sequences of length < 2. -/
  | validTrivial
  /-- Message "Valid snake". -/
  | valid
  /-- Message "Consecutive vertices i and j have Hamming distance d, expected 1". -/
  | consecutiveViolation (i j d : Nat)
  /-- Message "Non-consecutive vertices j and i have Hamming distance d, must be > 1". -/
  | nonConsecutiveViolation (j i d : Nat)
deriving DecidableEq

/-- Python `validate_snake` from `core/validation.py`: first scan all consecutive
pairs `(i, i+1)` for Hamming distance exactly 1, then all pairs `(j, i)` with
`i ≥ 2`, `j ≤ i - 2` for Hamming distance > 1, reporting the first violation. -/
def validate_snake (vs : List Nat) : Bool × SnakeReason :=
  if vs.length < 2 then (true, .validTrivial)
  else
    match (List.range (vs.length - 1)).findSome? (fun i =>
        if hamming_distance (vs.getD i 0) (vs.getD (i + 1) 0) ≠ 1 then
          some (i, hamming_distance (vs.getD i 0) (vs.getD (i + 1) 0))
        else none) with
    | some (i, d) => (false, .consecutiveViolation i (i + 1) d)
    | none =>
      match (List.range vs.length).findSome? (fun i =>
          if 2 ≤ i then
            (List.range (i - 1)).findSome? (fun j =>
              if hamming_distance (vs.getD i 0) (vs.getD j 0) ≤ 1 then
                some (j, i, hamming_distance (vs.getD i 0) (vs.getD j 0))
              else none)
          else none) with
      | some (j, i, d) => (false, .nonConsecutiveViolation j i d)
      | none => (true, .valid)

/-! ## `utils/canonical.py` — canonical form filter -/

/-- Scanning loop of `is_canonical`: track the maximum dimension used so far
(starting at 0), fail when an element exceeds `max + 1`. -/
def canonScan : List Nat → Nat → Bool
  | [], _ => true
  | d :: rest, maxDim =>
    if maxDim + 1 < d then false
    else canonScan rest (if d = maxDim + 1 then d else maxDim)

/-- Python `is_canonical` from `utils/canonical.py`: empty sequences are canonical,
otherwise the first element must be 0 and every element at most one more than
the maximum element seen before it. -/
def is_canonical (seq : List Nat) : Bool :=
  match seq with
  | [] => true
  | h :: _ => if h ≠ 0 then false else canonScan seq 0

/-- Python `get_legal_next_dimensions` from `utils/canonical.py`: `[0]` for the empty
sequence, otherwise the distinct dimensions already used together with
`max + 1`, sorted ascending (`list(set(seq))` followed by `.sort()`). -/
def get_legal_next_dimensions (seq : List Nat) : List Nat :=
  match seq with
  | [] => [0]
  | _ => List.insertionSort (· ≤ ·) (seq.dedup ++ [seq.foldl Nat.max 0 + 1])

/-! ## `core/snake_node.py` — `SnakeNode` -/

inductive NodeError where
  /-- Message "Dimension must be >= 1". -/
  | invalidDimension (d : Nat)
  /-- Message "Transition t out of range [0, dimension)". -/
  | transitionOutOfRange (t : Nat)
deriving DecidableEq

structure SnakeNode where
  transition_sequence : List Nat
  dimension : Nat
deriving DecidableEq

/-- Python `SnakeNode.__init__`: reject `dimension < 1`, then reject the first
transition outside `[0, dimension)`; otherwise the node stores the sequence
and dimension unchanged (bitmap and fitness are derived, see below). -/
def mkSnakeNode (seq : List Nat) (dimension : Nat) : Except NodeError SnakeNode :=
  if dimension < 1 then .error (.invalidDimension dimension)
  else
    match seq.find? (fun t => decide (dimension ≤ t)) with
    | some t => .error (.transitionOutOfRange t)
    | none => .ok ⟨seq, dimension⟩

/-- Python `SnakeNode._mark_adjacent`: mark `vertex ^ (1 << d)` for every used
dimension `d < dimension`.  The source iterates over a Python `set`; the order
is irrelevant because `set_bit` is idempotent and commutative, so the
first-occurrence order of `List.dedup` is used. -/
def markAdjacent (dimension : Nat) (used : List Nat) (ws : List Nat) (v : Nat) : List Nat :=
  used.foldl (fun b d => if d < dimension then setBit b (v ^^^ 1 <<< d) else b) ws

/-- Loop of `SnakeNode._initialize_bitmap`: follow the transitions, marking
each visited vertex and its neighbours along the used dimensions. -/
def initBitmapLoop (dimension : Nat) (used : List Nat) : List Nat → Nat → List Nat → List Nat
  | ws, _, [] => ws
  | ws, cur, t :: rest =>
    let c := cur ^^^ 1 <<< t
    initBitmapLoop dimension used (markAdjacent dimension used (setBit ws c) c) c rest

/-- Python `SnakeNode._initialize_bitmap`: start from a fresh bitmap, mark the origin
and its used-dimension neighbours, then replay the transition sequence. -/
def initializeBitmap (seq : List Nat) (dimension : Nat) : List Nat :=
  initBitmapLoop dimension seq.dedup
    (markAdjacent dimension seq.dedup (setBit (freshBitmap dimension) 0) 0) 0 seq

/-- Python `SnakeNode._calculate_fitness`: count of unmarked vertices of the node's bitmap. -/
def fitness (seq : List Nat) (dimension : Nat) : Nat :=
  count_unmarked dimension (initializeBitmap seq dimension)

/-- Python `SnakeNode.can_extend`: false for a dimension outside `[0, dimension)`,
otherwise true iff the vertex reached by flipping that bit is unmarked. -/
def can_extend (seq : List Nat) (dimension d : Nat) : Bool :=
  if d < dimension then
    ! getBit (initializeBitmap seq dimension) (compute_current_vertex seq ^^^ 1 <<< d)
  else false

/-- Python `SnakeNode.create_child`: raises unless `can_extend`, otherwise a node for
the sequence extended by the new dimension (`None` models the raise). -/
def create_child (seq : List Nat) (dimension d : Nat) : Option (List Nat) :=
  if can_extend seq dimension d then some (seq ++ [d]) else none

/-- Python `SnakeNode.get_length`: number of transitions. -/
def SnakeNode.get_length (n : SnakeNode) : Nat :=
  n.transition_sequence.length

/-- Fitness of a `SnakeNode` (the `fitness` attribute computed in `__init__`). -/
def nodeFitness (n : SnakeNode) : Nat :=
  fitness n.transition_sequence n.dimension

/-- Python `SnakeNode.can_extend` on the structure. -/
def SnakeNode.canExtend (n : SnakeNode) (d : Nat) : Bool :=
  can_extend n.transition_sequence n.dimension d

/-- Python `SnakeNode.create_child` on the structure. -/
def SnakeNode.createChild (n : SnakeNode) (d : Nat) : Option SnakeNode :=
  (create_child n.transition_sequence n.dimension d).map (fun s => ⟨s, n.dimension⟩)

/-! ## `search/fitness.py` — `AdvancedFitnessEvaluator` -/

/-- BFS loop of `AdvancedFitnessEvaluator._flood_fill_reachable`: pop the head
of the queue; skip it when already visited or marked; otherwise add it to the
visited set and enqueue its not-yet-visited neighbours in all dimensions.
`visited` is a Python `set`, modelled as a duplicate-free list (membership is
checked before every insertion).  The fuel replaces the unbounded `while`. -/
def floodFillLoop (dimension : Nat) (bm : List Nat) : List Nat → List Nat → Nat → List Nat
  | visited, _, 0 => visited
  | visited, [], _ + 1 => visited
  | visited, v :: rest, fuel + 1 =>
    if visited.contains v || getBit bm v then floodFillLoop dimension bm visited rest fuel
    else
      let visited' := visited ++ [v]
      floodFillLoop dimension bm visited'
        (rest ++ (List.range dimension).filterMap (fun d =>
          let nb := v ^^^ 1 <<< d
          if visited'.contains nb then none else some nb)) fuel

/-- Python `AdvancedFitnessEvaluator._flood_fill_reachable` started, as in
`count_unreachable_vertices`, from the node's current vertex. -/
def flood_fill_reachable (seq : List Nat) (dimension fuel : Nat) : List Nat :=
  floodFillLoop dimension (initializeBitmap seq dimension) [] [compute_current_vertex seq] fuel

/-- Python `AdvancedFitnessEvaluator.count_unreachable_vertices`: total unmarked count
(the node's fitness) minus the size of the flood-filled reachable set. -/
def count_unreachable_vertices (seq : List Nat) (dimension fuel : Nat) : Nat :=
  fitness seq dimension - (flood_fill_reachable seq dimension fuel).length

/-! ## `search/bfs_pruned.py` — pruned BFS engine

Engine nodes are represented by their transition sequences; the dimension is
the engine's fixed parameter and bitmap/fitness are derived (`SnakeNode` holds
no other state).  The memory budget is abstracted into a node capacity `cap`:
`estimate_memory_usage(next) > memory_limit_gb` holds iff the node count
exceeds `memory_limit_gb * 1024³ / bytes_per_node`, whose floor is exactly the
`max_nodes` used by `prune_by_fitness`, so one integer capacity reproduces
both the trigger and the truncation bound of the floating-point estimate. -/

/-- Child generation for one frontier (the inner loops of `pruned_bfs_search`):
for each node, for each legal next dimension (canonical filter), create the
child when `can_extend` holds.  The `try/except ValueError` around
`create_child` is dead code, since `create_child` only raises when
`can_extend` is false, which the loop has already checked. -/
def expandLevel (dimension : Nat) (level : List (List Nat)) : List (List Nat) :=
  level.flatMap (fun s => (get_legal_next_dimensions s).filterMap (fun d => create_child s dimension d))

/-- Python `prune_by_fitness`: keep the list when it fits, otherwise stable-sort by
fitness descending (Python `list.sort(key=fitness, reverse=True)`) and keep
the first `cap` nodes. -/
def pruneByFitness (dimension cap : Nat) (nodes : List (List Nat)) : List (List Nat) :=
  if nodes.length ≤ cap then nodes
  else (List.insertionSort (fun a b => fitness b dimension ≤ fitness a dimension) nodes).take cap

/-- One level of the engine: expand, then prune when over capacity. -/
def stepLevel (dimension cap : Nat) (level : List (List Nat)) : List (List Nat) :=
  let children := expandLevel dimension level
  if cap < children.length then pruneByFitness dimension cap children else children

/-- The successive frontiers of `pruned_bfs_search`: level 0 is the single
empty node at the origin. -/
def frontierAt (dimension cap : Nat) : Nat → List (List Nat)
  | 0 => [[]]
  | k + 1 => stepLevel dimension cap (frontierAt dimension cap k)

/-- Best-snake tracking of `pruned_bfs_search`: scanning the children in
creation order, replace the running best whenever a child is strictly longer
(`max_length` starts at 0 and always equals the length of the best, so it is
represented by `(best.map length).getD 0`). -/
def updateBest (best : Option (List Nat)) (children : List (List Nat)) : Option (List Nat) :=
  children.foldl (fun b c => if (b.map List.length).getD 0 < c.length then some c else b) best

/-- The `while current_level:` loop of `pruned_bfs_search`, fuel-indexed. -/
def bfsLoop (dimension cap : Nat) : Nat → List (List Nat) → Option (List Nat) → Option (List Nat)
  | 0, _, best => best
  | fuel + 1, level, best =>
    if level.isEmpty then best
    else
      bfsLoop dimension cap fuel (stepLevel dimension cap level) (updateBest best (expandLevel dimension level))

/-- Python `pruned_bfs_search`: run the loop from the empty node.  `2 ^ dimension + 1`
units of fuel always suffice (proved below: the frontier at level
`2 ^ dimension` is empty), so the fuel does not restrict the search. -/
def pruned_bfs_search (dimension cap : Nat) : Option (List Nat) :=
  bfsLoop dimension cap (2 ^ dimension + 1) [[]] none

/-! ## `search/priming.py` — priming/extension engine

`pruned_bfs_search_from_seed` selects its starting nodes (the seed plus
truncations of it at ratio-based and fixed cut points) and its
backtracking-on-empty candidates using floating-point ratio arithmetic
(`int(seed_length * 0.999)`, …); floating point is outside the embedding, so
these two selection steps are abstracted as the parameters `initSel` and
`backtrack`.  Everything downstream of them — the level loop, best tracking,
stall counters, pruning and the final return policy, which is what the
specification constrains — is translated faithfully. -/

/-- Python `detect_dimension`: one more than the maximum transition (1 when empty). -/
def detect_dimension (seq : List Nat) : Nat :=
  if seq.isEmpty then 1 else seq.foldl Nat.max 0 + 1

/-- Legal dimensions inside the seed search: the canonical set, with the newly
introduced dimension `dimension - 1` appended when missing. -/
def seedLegalDims (s : List Nat) (dimension : Nat) : List Nat :=
  let legal := get_legal_next_dimensions s
  if ! legal.contains (dimension - 1) && decide (dimension - 1 < dimension) then
    legal ++ [dimension - 1]
  else legal

/-- Child generation of one seed-search level (`for dim_val in legal_dims:
if dim_val >= dimension: continue; if is_valid_extension: create_child`). -/
def seedExpand (dimension : Nat) (level : List (List Nat)) : List (List Nat) :=
  level.flatMap (fun s =>
    ((seedLegalDims s dimension).filter (fun d => d < dimension)).filterMap
      (fun d => create_child s dimension d))

/-- Mutable state of the `while` loop in `pruned_bfs_search_from_seed`. -/
structure SeedState where
  level : List (List Nat)
  best : List Nat
  maxLength : Nat
  noImprove : Nat
  levelCount : Nat
deriving DecidableEq

/-- Per-child best tracking of the seed search: a strictly longer child
becomes the best and resets the no-improvement counter, every other child
increments it. -/
def seedUpdate (st : SeedState) (children : List (List Nat)) : SeedState :=
  children.foldl (fun s c =>
    if s.maxLength < c.length then { s with best := c, maxLength := c.length, noImprove := 0 }
    else { s with noImprove := s.noImprove + 1 }) st

/-! The `while current_level and level_count < max_levels:` loop of
`pruned_bfs_search_from_seed` (`seedLoop` below, with its intermediate states
named as helper functions).  When a level yields no children: dimensions
below 14 stop; dimensions ≥ 14 fall back to `backtrack` (prefixes of the best
snake, float-selected in the source) and keep looping — without advancing the
level counter — while it also comes back empty and `level_count ≤ 100`.
After advancing a level, the stall logic stops the search once the
no-improvement counter exceeds its patience (5000 for dimensions ≥ 14, else
2000), except that before any extension has been found it keeps going until
`level_count > 1000`, and for dimensions ≥ 14 below 5000 levels it resets the
counter instead of stopping. -/
/-- The state after expanding one level and updating the best snake
(`next_level` generation plus the per-child best tracking). -/
def seedSt1 (dimension : Nat) (st : SeedState) : SeedState :=
  seedUpdate st (seedExpand dimension st.level)

/-- The next frontier: the generated children, or — when a level yields no
children at dimension ≥ 14 — the backtracking candidates (prefixes of the
best snake; float-selected in the source, hence the parameter). -/
def seedNextLevel (dimension : Nat) (backtrack : List Nat → List (List Nat))
    (st : SeedState) : List (List Nat) :=
  if (seedExpand dimension st.level).isEmpty then
    (if 14 ≤ dimension then backtrack (seedSt1 dimension st).best else [])
  else seedExpand dimension st.level

/-- The state after pruning and advancing the level counter. -/
def seedSt2 (dimension cap : Nat) (backtrack : List Nat → List (List Nat))
    (st : SeedState) : SeedState :=
  { seedSt1 dimension st with
    level := if cap < (seedNextLevel dimension backtrack st).length then
        pruneByFitness dimension cap (seedNextLevel dimension backtrack st)
      else seedNextLevel dimension backtrack st,
    levelCount := (seedSt1 dimension st).levelCount + 1 }

def seedLoop (dimension cap maxLevels seedLen : Nat) (backtrack : List Nat → List (List Nat)) :
    Nat → SeedState → SeedState
  | 0, st => st
  | fuel + 1, st =>
    if st.level.isEmpty || ! decide (st.levelCount < maxLevels) then st
    else if (seedExpand dimension st.level).isEmpty && ! decide (14 ≤ dimension) then
      seedSt1 dimension st
    else if (seedExpand dimension st.level).isEmpty &&
        (seedNextLevel dimension backtrack st).isEmpty then
      (if 100 < (seedSt1 dimension st).levelCount then seedSt1 dimension st
       else seedLoop dimension cap maxLevels seedLen backtrack fuel (seedSt1 dimension st))
    else
      (if (if 14 ≤ dimension then 5000 else 2000) <
          (seedSt2 dimension cap backtrack st).noImprove then
        (if seedLen < (seedSt2 dimension cap backtrack st).maxLength then
          seedSt2 dimension cap backtrack st
         else if 1000 < (seedSt2 dimension cap backtrack st).levelCount then
           (if 14 ≤ dimension && decide ((seedSt2 dimension cap backtrack st).levelCount < 5000) then
             seedLoop dimension cap maxLevels seedLen backtrack fuel
               { seedSt2 dimension cap backtrack st with noImprove := 0 }
           else seedSt2 dimension cap backtrack st)
         else seedLoop dimension cap maxLevels seedLen backtrack fuel
           (seedSt2 dimension cap backtrack st))
      else seedLoop dimension cap maxLevels seedLen backtrack fuel
        (seedSt2 dimension cap backtrack st))

/-- Python `pruned_bfs_search_from_seed`: raises (modelled by `.error ()`) when the
seed's dimension differs from the target dimension; otherwise runs the level
loop starting from the selected initial nodes with the seed as running best,
and returns the best node only when its length strictly exceeds the seed's
(`None` signals "no extension found"). -/
def pruned_bfs_search_from_seed (seed : SnakeNode) (dimension cap maxLevels fuel : Nat)
    (initSel : SnakeNode → List (List Nat)) (backtrack : List Nat → List (List Nat)) :
    Except Unit (Option SnakeNode) :=
  if seed.dimension ≠ dimension then .error ()
  else
    let seedLen := seed.get_length
    let final := seedLoop dimension cap maxLevels seedLen backtrack fuel
      ⟨initSel seed, seed.transition_sequence, seedLen, 0, 0⟩
    .ok (if seedLen < final.maxLength then some ⟨final.best, dimension⟩ else none)

/-- Parameters that `prime_search` passes to the seed search for each
dimension increment: the capacity stands for the memory limit (float-scaled in
the source for dimensions ≥ 14), the fuel models the unbounded loop, and
`initSel` / `backtrack` abstract the float-based prefix selection. -/
structure PrimeParams where
  cap : Nat → Nat
  fuel : Nat → Nat
  initSel : SnakeNode → List (List Nat)
  backtrack : List Nat → List (List Nat)

/-- The `while current_dim < target_dimension:` loop of `prime_search`: build
a seed node for the next dimension (falling back to the current snake when
construction fails), run the seed search (`max_levels` is 200000 for
dimensions ≥ 14, else 50000), and advance only when the result is strictly
longer; otherwise return the current snake unchanged. -/
def primeLoop (P : PrimeParams) (target : Nat) (cur : List Nat) (curDim : Nat) : List Nat :=
  if h : curDim < target then
    match mkSnakeNode cur (curDim + 1) with
    | .error _ => cur
    | .ok node =>
      let maxLevels := if 14 ≤ curDim + 1 then 200000 else 50000
      match pruned_bfs_search_from_seed node (curDim + 1) (P.cap (curDim + 1)) maxLevels
          (P.fuel (curDim + 1)) P.initSel P.backtrack with
      | .error _ => cur
      | .ok none => cur
      | .ok (some ext) =>
        if cur.length < ext.get_length then primeLoop P target ext.transition_sequence (curDim + 1)
        else cur
  else cur
termination_by target - curDim

/-- Python `prime_search` from `search/priming.py`: returns the snake unchanged when
it is already at (or past) the target dimension, otherwise iterates the
dimension-increment loop. -/
def prime_search (snake : List Nat) (target : Nat) (P : PrimeParams) : List Nat :=
  if target ≤ detect_dimension snake then snake
  else primeLoop P target snake (detect_dimension snake)

/-! ## Lemmas: population count -/

theorem popcountAux_zero : ∀ f, popcountAux f 0 = 0 := by
  intro f
  rcases f with _ | f
  · rfl
  · rfl

/-- The fuel is irrelevant once it is at least the argument. -/
theorem popcountAux_fuel : ∀ f g n, n ≤ f → n ≤ g → popcountAux f n = popcountAux g n := by
  intro f
  induction f with
  | zero =>
    intro g n hf _
    have hn : n = 0 := by omega
    subst hn
    rw [popcountAux_zero, popcountAux_zero]
  | succ f ih =>
    intro g n hf hg
    rcases Nat.eq_zero_or_pos n with h0 | h0
    · subst h0
      rw [popcountAux_zero, popcountAux_zero]
    · rcases g with _ | g
      · omega
      · simp only [popcountAux]
        rw [if_neg (by omega), if_neg (by omega)]
        congr 1
        have hd : n / 2 < n := Nat.div_lt_self h0 (by norm_num)
        exact ih g (n / 2) (by omega) (by omega)

theorem popcount_zero : popcount 0 = 0 := rfl

theorem popcount_succ (m : Nat) : popcount (m + 1) = (m + 1) % 2 + popcount ((m + 1) / 2) := by
  show popcountAux (m + 1) (m + 1) = _
  simp only [popcountAux]
  rw [if_neg (by omega)]
  congr 1
  have hd : (m + 1) / 2 < m + 1 := Nat.div_lt_self (by omega) (by norm_num)
  exact popcountAux_fuel m ((m + 1) / 2) ((m + 1) / 2) (by omega) (le_refl _)

/-- Pointwise-equal predicates count the same. -/
theorem countP_ext (l : List Nat) (p q : Nat → Bool) (h : ∀ a ∈ l, p a = q a) :
    l.countP p = l.countP q :=
  List.countP_congr (fun x hx => by rw [h x hx])

/-- Python `popcount n` counts the true bits of `n` below any bound `k` with `n < 2 ^ k`. -/
theorem popcount_testBit : ∀ (k n : Nat), n < 2 ^ k →
    popcount n = (List.range k).countP (fun i => n.testBit i) := by
  intro k
  induction k with
  | zero =>
    intro n h
    have hn : n = 0 := by simpa using h
    simp [hn, popcount_zero]
  | succ k ih =>
    intro n h
    rcases n with _ | m
    · simp [popcount_zero, Nat.zero_testBit]
    · rw [popcount_succ, List.range_succ_eq_map, List.countP_cons, List.countP_map]
      have hd : (m + 1) / 2 < 2 ^ k := by
        rw [Nat.div_lt_iff_lt_mul (by norm_num)]
        calc m + 1 < 2 ^ (k + 1) := h
        _ = 2 ^ k * 2 := by ring
      rw [ih ((m + 1) / 2) hd]
      have hstep : (List.range k).countP ((fun i => (m + 1).testBit i) ∘ Nat.succ) =
          (List.range k).countP (fun i => ((m + 1) / 2).testBit i) :=
        countP_ext _ _ _ (fun i _ => Nat.testBit_succ (m + 1) i)
      rw [hstep]
      have hbit : (if (m + 1).testBit 0 then 1 else 0) = (m + 1) % 2 := by
        rw [Nat.testBit_zero]
        rcases Nat.mod_two_eq_zero_or_one (m + 1) with h | h <;> simp [h]
      omega

/-- Generic counting fact: a predicate and its negation partition a list. -/
theorem countP_add_countP_not (l : List Nat) (p : Nat → Bool) :
    l.countP p + l.countP (fun a => ! p a) = l.length := by
  induction l with
  | nil => simp
  | cons a l ih =>
    rw [List.countP_cons, List.countP_cons, List.length_cons]
    cases h : p a <;> simp [h] <;> omega

/-! ## Lemmas: bitmap operations -/

theorem length_setBit (ws : List Nat) (v : Nat) : (setBit ws v).length = ws.length := by
  simp [setBit]

theorem getBit_setBit (ws : List Nat) (v u : Nat) (hv : v / 64 < ws.length) :
    getBit (setBit ws v) u = (getBit ws u || decide (u = v)) := by
  unfold getBit setBit
  rcases eq_or_ne (u / 64) (v / 64) with h | h
  · rw [h]
    rw [show (ws.set (v / 64) (ws.getD (v / 64) 0 ||| 1 <<< (v % 64))).getD (v / 64) 0 =
        ws.getD (v / 64) 0 ||| 1 <<< (v % 64) from by
      simp [List.getD, List.getElem?_set_self', hv]]
    rw [Nat.testBit_or]
    rw [show (1 <<< (v % 64)) = 2 ^ (v % 64) from by rw [Nat.shiftLeft_eq, one_mul]]
    rw [Nat.testBit_two_pow]
    congr 1
    have hu64 := Nat.div_add_mod u 64
    have hv64 := Nat.div_add_mod v 64
    by_cases huv : u = v
    · simp [huv]
    · have hne : ¬ (v % 64 = u % 64) := by omega
      simp [huv, hne]
  · rw [show (ws.set (v / 64) (ws.getD (v / 64) 0 ||| 1 <<< (v % 64))).getD (u / 64) 0 =
        ws.getD (u / 64) 0 from by
      simp [List.getD, List.getElem?_set_ne (Ne.symm h)]]
    have huv : ¬ (u = v) := fun he => h (by rw [he])
    simp [huv]

theorem getBit_freshBitmap (dimension u : Nat) : getBit (freshBitmap dimension) u = false := by
  unfold getBit freshBitmap
  rcases Nat.lt_or_ge (u / 64) (bitmapNumWords dimension) with h | h
  · simp [List.getD, List.getElem?_replicate, h, Nat.zero_testBit]
  · have hnone : (List.replicate (bitmapNumWords dimension) (0 : Nat))[u / 64]? = none :=
      List.getElem?_eq_none (by simpa using h)
    simp [List.getD, hnone, Nat.zero_testBit]

theorem length_freshBitmap (dimension : Nat) :
    (freshBitmap dimension).length = bitmapNumWords dimension := by
  simp [freshBitmap]

/-- A vertex below `2 ^ dimension` always addresses a word inside the bitmap. -/
theorem vertex_word_lt (dimension v : Nat) (hv : v < 2 ^ dimension) :
    v / 64 < bitmapNumWords dimension := by
  unfold bitmapNumWords
  have h1 := Nat.div_add_mod v 64
  have h2 := Nat.div_add_mod (2 ^ dimension + 63) 64
  have h3 : (2 ^ dimension + 63) % 64 < 64 := Nat.mod_lt _ (by norm_num)
  have h4 : v % 64 < 64 := Nat.mod_lt _ (by norm_num)
  omega

theorem two_pow_le_words (dimension : Nat) : 2 ^ dimension ≤ 64 * bitmapNumWords dimension := by
  unfold bitmapNumWords
  have h2 := Nat.div_add_mod (2 ^ dimension + 63) 64
  have h3 : (2 ^ dimension + 63) % 64 < 64 := Nat.mod_lt _ (by norm_num)
  omega

/-- Marking a list of in-range vertices: a bit is set in the result iff it was
set before or its vertex is in the list. -/
theorem getBit_foldl_setBit : ∀ (ms : List Nat) (ws : List Nat) (u : Nat),
    (∀ m ∈ ms, m / 64 < ws.length) →
    getBit (ms.foldl setBit ws) u = (getBit ws u || decide (u ∈ ms)) := by
  intro ms
  induction ms with
  | nil => intro ws u _; simp
  | cons m ms ih =>
    intro ws u hm
    rw [List.foldl_cons,
      ih (setBit ws m) u (fun x hx => by
        rw [length_setBit]; exact hm x (List.mem_cons_of_mem m hx)),
      getBit_setBit ws m u (hm m (List.mem_cons_self m ms))]
    by_cases h1 : u = m <;> by_cases h2 : u ∈ ms <;>
      simp [h1, h2, List.mem_cons, Bool.or_assoc]

theorem length_foldl_setBit : ∀ (ms : List Nat) (ws : List Nat),
    (ms.foldl setBit ws).length = ws.length := by
  intro ms
  induction ms with
  | nil => intro ws; rfl
  | cons m ms ih => intro ws; rw [List.foldl_cons, ih, length_setBit]

/-! ## Well-formed bitmaps

Every bitmap reachable through the `HypercubeBitmap` interface satisfies this
invariant: correct word count, 64-bit words, and no bit set at a position at
or above `2 ^ dimension` (`set_bit` rejects such vertices). -/

def WFBitmap (dimension : Nat) (ws : List Nat) : Prop :=
  ws.length = bitmapNumWords dimension ∧ (∀ w ∈ ws, w < 2 ^ 64) ∧
  ∀ v, v < 64 * ws.length → 2 ^ dimension ≤ v → getBit ws v = false

theorem WFBitmap_fresh (dimension : Nat) : WFBitmap dimension (freshBitmap dimension) := by
  refine ⟨length_freshBitmap dimension, ?_, ?_⟩
  · intro w hw
    rw [List.eq_of_mem_replicate hw]
    positivity
  · intro v _ _
    exact getBit_freshBitmap dimension v

theorem WFBitmap_setBit (dimension : Nat) (ws : List Nat) (v : Nat)
    (hwf : WFBitmap dimension ws) (hv : v < 2 ^ dimension) : WFBitmap dimension (setBit ws v) := by
  obtain ⟨hlen, hwords, hhigh⟩ := hwf
  have hvw : v / 64 < ws.length := by rw [hlen]; exact vertex_word_lt dimension v hv
  refine ⟨by rw [length_setBit, hlen], ?_, ?_⟩
  · intro w hw
    rcases List.mem_or_eq_of_mem_set hw with h | h
    · exact hwords w h
    · subst h
      refine Nat.or_lt_two_pow ?_ ?_
      · rw [show ws.getD (v / 64) 0 = ws[v / 64] from by
          simp [List.getD, List.getElem?_eq_getElem hvw]]
        exact hwords _ (List.getElem_mem hvw)
      · rw [show (1 <<< (v % 64)) = 2 ^ (v % 64) from by rw [Nat.shiftLeft_eq, one_mul]]
        exact Nat.pow_lt_pow_right (by norm_num) (Nat.mod_lt _ (by norm_num))
  · intro u hu hu2
    rw [length_setBit] at hu
    rw [getBit_setBit ws v u hvw]
    have hne : ¬ (u = v) := by omega
    rw [hhigh u hu hu2]
    simp [hne]

theorem WFBitmap_foldl_setBit : ∀ (ms : List Nat) (ws : List Nat) (dimension : Nat),
    WFBitmap dimension ws → (∀ m ∈ ms, m < 2 ^ dimension) →
    WFBitmap dimension (ms.foldl setBit ws) := by
  intro ms
  induction ms with
  | nil => intro ws dimension hwf _; exact hwf
  | cons m ms ih =>
    intro ws dimension hwf hm
    rw [List.foldl_cons]
    exact ih (setBit ws m) dimension
      (WFBitmap_setBit dimension ws m hwf (hm m (List.mem_cons_self m ms)))
      (fun x hx => hm x (List.mem_cons_of_mem m hx))

/-! ## The two unmarked-vertex counters agree on well-formed bitmaps -/

theorem sum_popcount_eq_countP : ∀ (ws : List Nat), (∀ w ∈ ws, w < 2 ^ 64) →
    (ws.map popcount).sum = (List.range (64 * ws.length)).countP (fun v => getBit ws v) := by
  intro ws
  induction ws with
  | nil => simp
  | cons w rest ih =>
    intro hw
    have hlen : 64 * (w :: rest).length = 64 + 64 * rest.length := by
      rw [List.length_cons]; ring
    rw [hlen, List.range_add, List.countP_append, List.countP_map]
    have h1 : (List.range 64).countP (fun v => getBit (w :: rest) v) = popcount w := by
      rw [countP_ext (List.range 64) _ (fun i => w.testBit i) (fun v hv => by
        have hv64 : v < 64 := List.mem_range.mp hv
        unfold getBit
        rw [Nat.div_eq_of_lt hv64, Nat.mod_eq_of_lt hv64]
        rfl)]
      exact (popcount_testBit 64 w (hw w (List.mem_cons_self w rest))).symm
    rw [countP_ext (List.range (64 * rest.length)) _ (fun v => getBit rest v) (fun v _ => by
      simp only [Function.comp_apply]
      unfold getBit
      have hdiv : (64 + v) / 64 = v / 64 + 1 := by omega
      have hmod : (64 + v) % 64 = v % 64 := by omega
      rw [hdiv, hmod]
      rfl)]
    rw [List.map_cons, List.sum_cons, ih (fun x hx => hw x (List.mem_cons_of_mem w hx)), h1]

theorem countP_getBit_of_WF (dimension : Nat) (ws : List Nat) (hwf : WFBitmap dimension ws) :
    (List.range (2 ^ dimension)).countP (fun v => getBit ws v) = (ws.map popcount).sum := by
  obtain ⟨hlen, hwords, hhigh⟩ := hwf
  have hle : 2 ^ dimension ≤ 64 * ws.length := by rw [hlen]; exact two_pow_le_words dimension
  rw [sum_popcount_eq_countP ws hwords]
  rw [show 64 * ws.length = 2 ^ dimension + (64 * ws.length - 2 ^ dimension) from by omega]
  rw [List.range_add, List.countP_append, List.countP_map]
  rw [countP_ext (List.range (64 * ws.length - 2 ^ dimension)) _ (fun _ => false) (fun v hv => by
    have := List.mem_range.mp hv
    simp only [Function.comp_apply]
    exact hhigh _ (by omega) (by omega))]
  simp

theorem count_unmarked_of_WF (dimension : Nat) (ws : List Nat) (hwf : WFBitmap dimension ws) :
    count_unmarked dimension ws = 2 ^ dimension - (ws.map popcount).sum := by
  unfold count_unmarked
  rw [← List.countP_eq_length_filter]
  have hpart := countP_add_countP_not (List.range (2 ^ dimension)) (fun v => getBit ws v)
  rw [List.length_range] at hpart
  have hmarked := countP_getBit_of_WF dimension ws ⟨hwf.1, hwf.2.1, hwf.2.2⟩
  omega

/-! ## The marked-vertex set of a snake node

`_initialize_bitmap` is a sequence of `set_bit` calls; the lemmas below
characterise the resulting bitmap as the membership test of an explicit list
of marked vertices. -/

/-- Vertices visited after the start vertex when replaying `seq` from `cur`. -/
def pathFrom (cur : Nat) : List Nat → List Nat
  | [] => []
  | t :: rest => (cur ^^^ 1 <<< t) :: pathFrom (cur ^^^ 1 <<< t) rest

/-- The vertices marked for one visited vertex: the vertex itself and its
neighbours along the used dimensions below `dimension`. -/
def markGroup (dimension : Nat) (used : List Nat) (v : Nat) : List Nat :=
  v :: (used.filter (fun d => d < dimension)).map (fun d => v ^^^ 1 <<< d)

/-- All vertices marked by `_initialize_bitmap` for the node `(seq, dimension)`. -/
def markedVertices (seq : List Nat) (dimension : Nat) : List Nat :=
  (0 :: pathFrom 0 seq).flatMap (markGroup dimension seq.dedup)

theorem foldl_ite_filter (l : List Nat) (p : Nat → Prop) [DecidablePred p]
    (f : List Nat → Nat → List Nat) (b : List Nat) :
    l.foldl (fun acc x => if p x then f acc x else acc) b =
      (l.filter (fun x => decide (p x))).foldl f b := by
  induction l generalizing b with
  | nil => rfl
  | cons x l ih =>
    rw [List.foldl_cons, List.filter_cons]
    by_cases h : p x
    · rw [if_pos h, if_pos (by simpa using h), ih]
      rfl
    · rw [if_neg h, if_neg (by simpa using h), ih]

theorem markAdjacent_eq (dimension : Nat) (used ws : List Nat) (v : Nat) :
    markAdjacent dimension used ws v =
      ((used.filter (fun d => d < dimension)).map (fun d => v ^^^ 1 <<< d)).foldl setBit ws := by
  unfold markAdjacent
  rw [foldl_ite_filter used (fun d => d < dimension) (fun b d => setBit b (v ^^^ 1 <<< d)) ws]
  rw [List.foldl_map]

theorem markStep_eq (dimension : Nat) (used ws : List Nat) (v : Nat) :
    markAdjacent dimension used (setBit ws v) v = (markGroup dimension used v).foldl setBit ws := by
  rw [markAdjacent_eq]
  rfl

theorem initBitmapLoop_eq (dimension : Nat) (used : List Nat) :
    ∀ (seq : List Nat) (ws : List Nat) (cur : Nat),
    initBitmapLoop dimension used ws cur seq =
      ((pathFrom cur seq).flatMap (markGroup dimension used)).foldl setBit ws := by
  intro seq
  induction seq with
  | nil => intro ws cur; rfl
  | cons t rest ih =>
    intro ws cur
    rw [show initBitmapLoop dimension used ws cur (t :: rest) =
        initBitmapLoop dimension used
          (markAdjacent dimension used (setBit ws (cur ^^^ 1 <<< t)) (cur ^^^ 1 <<< t))
          (cur ^^^ 1 <<< t) rest from rfl]
    rw [ih, markStep_eq]
    rw [show pathFrom cur (t :: rest) = (cur ^^^ 1 <<< t) :: pathFrom (cur ^^^ 1 <<< t) rest from rfl]
    rw [List.flatMap_cons, List.foldl_append]

theorem initializeBitmap_eq (seq : List Nat) (dimension : Nat) :
    initializeBitmap seq dimension =
      (markedVertices seq dimension).foldl setBit (freshBitmap dimension) := by
  unfold initializeBitmap markedVertices
  rw [initBitmapLoop_eq, markStep_eq, List.flatMap_cons, List.foldl_append]

theorem pathFrom_all_lt (dimension : Nat) : ∀ (seq : List Nat) (cur : Nat), cur < 2 ^ dimension →
    (∀ t ∈ seq, t < dimension) → ∀ v ∈ pathFrom cur seq, v < 2 ^ dimension := by
  intro seq
  induction seq with
  | nil => intro cur _ _ v hv; simp [pathFrom] at hv
  | cons t rest ih =>
    intro cur hcur hseq v hv
    rw [show pathFrom cur (t :: rest) = (cur ^^^ 1 <<< t) :: pathFrom (cur ^^^ 1 <<< t) rest
      from rfl] at hv
    have ht : t < dimension := hseq t (List.mem_cons_self t rest)
    have hc : cur ^^^ 1 <<< t < 2 ^ dimension := by
      refine Nat.xor_lt_two_pow hcur ?_
      rw [Nat.shiftLeft_eq, one_mul]
      exact Nat.pow_lt_pow_right (by norm_num) ht
    rcases List.mem_cons.mp hv with h | h
    · rw [h]; exact hc
    · exact ih (cur ^^^ 1 <<< t) hc (fun x hx => hseq x (List.mem_cons_of_mem t hx)) v h

theorem markedVertices_all_lt (seq : List Nat) (dimension : Nat)
    (hseq : ∀ t ∈ seq, t < dimension) :
    ∀ v ∈ markedVertices seq dimension, v < 2 ^ dimension := by
  intro v hv
  unfold markedVertices at hv
  rcases List.mem_flatMap.mp hv with ⟨w, hw, hvw⟩
  have hw2 : w < 2 ^ dimension := by
    rcases List.mem_cons.mp hw with h | h
    · rw [h]; positivity
    · exact pathFrom_all_lt dimension seq 0 (by positivity) hseq w h
  unfold markGroup at hvw
  rcases List.mem_cons.mp hvw with h | h
  · rw [h]; exact hw2
  · rcases List.mem_map.mp h with ⟨d, hd, hdv⟩
    have hdlt : d < dimension := by
      have := (List.mem_filter.mp hd).2
      simpa using this
    rw [← hdv]
    refine Nat.xor_lt_two_pow hw2 ?_
    rw [Nat.shiftLeft_eq, one_mul]
    exact Nat.pow_lt_pow_right (by norm_num) hdlt

/-- The bitmap built by `_initialize_bitmap` is exactly the membership test of
`markedVertices`. -/
theorem getBit_initializeBitmap (seq : List Nat) (dimension : Nat)
    (hseq : ∀ t ∈ seq, t < dimension) (u : Nat) :
    getBit (initializeBitmap seq dimension) u = decide (u ∈ markedVertices seq dimension) := by
  rw [initializeBitmap_eq]
  rw [getBit_foldl_setBit _ _ _ (fun m hm => by
    rw [length_freshBitmap]
    exact vertex_word_lt dimension m (markedVertices_all_lt seq dimension hseq m hm))]
  rw [getBit_freshBitmap]
  simp

theorem WFBitmap_initializeBitmap (seq : List Nat) (dimension : Nat)
    (hseq : ∀ t ∈ seq, t < dimension) :
    WFBitmap dimension (initializeBitmap seq dimension) := by
  rw [initializeBitmap_eq]
  exact WFBitmap_foldl_setBit _ _ _ (WFBitmap_fresh dimension)
    (markedVertices_all_lt seq dimension hseq)

/-! ## The current vertex and the visited path -/

theorem pathFrom_getLastD : ∀ (seq : List Nat) (cur : Nat),
    (pathFrom cur seq).getLastD cur = seq.foldl (fun v t => v ^^^ 1 <<< t) cur := by
  intro seq
  induction seq with
  | nil => intro cur; rfl
  | cons t rest ih =>
    intro cur
    rw [show pathFrom cur (t :: rest) = (cur ^^^ 1 <<< t) :: pathFrom (cur ^^^ 1 <<< t) rest
      from rfl]
    rw [List.getLastD_cons, ih, List.foldl_cons]

theorem getLastD_mem_cons : ∀ (l : List Nat) (a : Nat), l.getLastD a ∈ a :: l := by
  intro l
  induction l with
  | nil => intro a; simp
  | cons b l ih =>
    intro a
    rw [List.getLastD_cons]
    rcases List.mem_cons.mp (ih b) with h | h
    · rw [h]; exact List.mem_cons_of_mem a (List.mem_cons_self b l)
    · exact List.mem_cons_of_mem a (List.mem_cons_of_mem b h)

theorem current_mem_path (seq : List Nat) :
    compute_current_vertex seq ∈ 0 :: pathFrom 0 seq := by
  rw [show compute_current_vertex seq = (pathFrom 0 seq).getLastD 0 from
    (pathFrom_getLastD seq 0).symm]
  exact getLastD_mem_cons _ 0

theorem path_subset_marked (seq : List Nat) (dimension : Nat) :
    ∀ v ∈ 0 :: pathFrom 0 seq, v ∈ markedVertices seq dimension := by
  intro v hv
  unfold markedVertices
  refine List.mem_flatMap.mpr ⟨v, hv, ?_⟩
  unfold markGroup
  exact List.mem_cons_self _ _

theorem current_marked (seq : List Nat) (dimension : Nat)
    (hseq : ∀ t ∈ seq, t < dimension) :
    getBit (initializeBitmap seq dimension) (compute_current_vertex seq) = true := by
  rw [getBit_initializeBitmap seq dimension hseq]
  simp [path_subset_marked seq dimension _ (current_mem_path seq)]

theorem current_lt (dimension : Nat) (seq : List Nat) (hseq : ∀ t ∈ seq, t < dimension) :
    compute_current_vertex seq < 2 ^ dimension := by
  rcases List.mem_cons.mp (current_mem_path seq) with h | h
  · rw [h]; positivity
  · exact pathFrom_all_lt dimension seq 0 (by positivity) hseq _ h

theorem pathFrom_append_single : ∀ (seq : List Nat) (cur d : Nat),
    pathFrom cur (seq ++ [d]) =
      pathFrom cur seq ++ [(seq.foldl (fun v t => v ^^^ 1 <<< t) cur) ^^^ 1 <<< d] := by
  intro seq
  induction seq with
  | nil => intro cur d; rfl
  | cons t rest ih =>
    intro cur d
    rw [List.cons_append]
    rw [show pathFrom cur (t :: (rest ++ [d])) =
      (cur ^^^ 1 <<< t) :: pathFrom (cur ^^^ 1 <<< t) (rest ++ [d]) from rfl]
    rw [ih]
    rw [show pathFrom cur (t :: rest) = (cur ^^^ 1 <<< t) :: pathFrom (cur ^^^ 1 <<< t) rest
      from rfl]
    rw [List.foldl_cons, List.cons_append]

/-! ## Fitness monotonicity under extension -/

theorem markedVertices_mono (seq : List Nat) (dimension d : Nat) :
    ∀ v ∈ markedVertices seq dimension, v ∈ markedVertices (seq ++ [d]) dimension := by
  intro v hv
  unfold markedVertices at hv ⊢
  rcases List.mem_flatMap.mp hv with ⟨w, hw, hvw⟩
  refine List.mem_flatMap.mpr ⟨w, ?_, ?_⟩
  · rcases List.mem_cons.mp hw with h | h
    · simp [h]
    · rw [pathFrom_append_single]
      exact List.mem_cons_of_mem _ (List.mem_append_left _ h)
  · unfold markGroup at hvw ⊢
    rcases List.mem_cons.mp hvw with h | h
    · simp [h]
    · rcases List.mem_map.mp h with ⟨e, he, hev⟩
      have hef := List.mem_filter.mp he
      refine List.mem_cons_of_mem _ (List.mem_map.mpr ⟨e, List.mem_filter.mpr ⟨?_, hef.2⟩, hev⟩)
      exact List.mem_dedup.mpr (List.mem_append_left _ (List.mem_dedup.mp hef.1))

theorem fitness_eq_countP (seq : List Nat) (dimension : Nat)
    (hseq : ∀ t ∈ seq, t < dimension) :
    fitness seq dimension =
      (List.range (2 ^ dimension)).countP (fun v => ! decide (v ∈ markedVertices seq dimension)) := by
  unfold fitness count_unmarked
  rw [← List.countP_eq_length_filter]
  exact countP_ext _ _ _ (fun v _ => by rw [getBit_initializeBitmap seq dimension hseq v])

theorem seq_append_lt (seq : List Nat) (dimension d : Nat)
    (hseq : ∀ t ∈ seq, t < dimension) (hd : d < dimension) :
    ∀ t ∈ seq ++ [d], t < dimension := by
  intro t ht
  rcases List.mem_append.mp ht with h | h
  · exact hseq t h
  · simp at h
    omega

theorem fitness_le_of_append (seq : List Nat) (dimension d : Nat)
    (hseq : ∀ t ∈ seq, t < dimension) (hd : d < dimension) :
    fitness (seq ++ [d]) dimension ≤ fitness seq dimension := by
  rw [fitness_eq_countP seq dimension hseq,
      fitness_eq_countP (seq ++ [d]) dimension (seq_append_lt seq dimension d hseq hd)]
  apply List.countP_mono_left
  intro v _ hv
  simp only [Bool.not_eq_true', decide_eq_false_iff_not] at hv ⊢
  exact fun hmem => hv (markedVertices_mono seq dimension d v hmem)

/-! ## `can_extend` facts -/

theorem can_extend_lt (seq : List Nat) (dimension d : Nat)
    (h : can_extend seq dimension d = true) : d < dimension := by
  by_contra hc
  unfold can_extend at h
  rw [if_neg hc] at h
  simp at h

theorem can_extend_out_of_range (seq : List Nat) (dimension d : Nat)
    (h : dimension ≤ d) : can_extend seq dimension d = false := by
  unfold can_extend
  rw [if_neg (by omega)]

theorem can_extend_not_marked (seq : List Nat) (dimension d : Nat)
    (hseq : ∀ t ∈ seq, t < dimension) (h : can_extend seq dimension d = true) :
    (compute_current_vertex seq ^^^ 1 <<< d) ∉ markedVertices seq dimension := by
  have hd := can_extend_lt seq dimension d h
  unfold can_extend at h
  rw [if_pos hd, getBit_initializeBitmap seq dimension hseq] at h
  simpa using h

/-! ## Codec round-trip lemmas -/

theorem pathFrom_length : ∀ (seq : List Nat) (cur : Nat), (pathFrom cur seq).length = seq.length := by
  intro seq
  induction seq with
  | nil => intro cur; rfl
  | cons t rest ih =>
    intro cur
    rw [show pathFrom cur (t :: rest) = (cur ^^^ 1 <<< t) :: pathFrom (cur ^^^ 1 <<< t) rest
      from rfl]
    rw [List.length_cons, ih, List.length_cons]

theorem t2vAux_ok (dimension : Nat) : ∀ (seq : List Nat) (cur : Nat),
    (∀ t ∈ seq, t < dimension) → t2vAux dimension cur seq = .ok (pathFrom cur seq) := by
  intro seq
  induction seq with
  | nil => intro cur _; rfl
  | cons t rest ih =>
    intro cur hseq
    have ht : t < dimension := hseq t (List.mem_cons_self t rest)
    rw [show t2vAux dimension cur (t :: rest) =
        (if t < dimension then
          (t2vAux dimension (cur ^^^ 1 <<< t) rest).map (fun vs => (cur ^^^ 1 <<< t) :: vs)
        else .error (.transitionOutOfRange t)) from rfl]
    rw [if_pos ht, ih (cur ^^^ 1 <<< t) (fun x hx => hseq x (List.mem_cons_of_mem t hx))]
    rfl

theorem two_pow_and_pred (t : Nat) : 2 ^ t &&& (2 ^ t - 1) = 0 := by
  apply Nat.eq_of_testBit_eq
  intro i
  rw [Nat.testBit_and, Nat.testBit_two_pow, Nat.testBit_two_pow_sub_one, Nat.zero_testBit]
  by_cases h : t = i
  · simp [h]
  · simp [h]

theorem xor_cancel_left (a b : Nat) : a ^^^ (a ^^^ b) = b := by
  rw [← Nat.xor_assoc, Nat.xor_self, Nat.zero_xor]

theorem v2tAux_path : ∀ (seq : List Nat) (cur i : Nat),
    v2tAux i (cur :: pathFrom cur seq) = .ok seq := by
  intro seq
  induction seq with
  | nil => intro cur i; rfl
  | cons t rest ih =>
    intro cur i
    rw [show pathFrom cur (t :: rest) = (cur ^^^ 1 <<< t) :: pathFrom (cur ^^^ 1 <<< t) rest
      from rfl]
    rw [show v2tAux i (cur :: (cur ^^^ 1 <<< t) :: pathFrom (cur ^^^ 1 <<< t) rest) =
        (if cur ^^^ (cur ^^^ 1 <<< t) = 0 then .error (.duplicateVertex i)
        else if (cur ^^^ (cur ^^^ 1 <<< t)) &&& ((cur ^^^ (cur ^^^ 1 <<< t)) - 1) ≠ 0 then
          .error (.multiBitTransition i)
        else (v2tAux (i + 1) ((cur ^^^ 1 <<< t) :: pathFrom (cur ^^^ 1 <<< t) rest)).map
          (fun ts => (Nat.size (cur ^^^ (cur ^^^ 1 <<< t)) - 1) :: ts)) from rfl]
    have hx : cur ^^^ (cur ^^^ 1 <<< t) = 2 ^ t := by
      rw [xor_cancel_left, Nat.shiftLeft_eq, one_mul]
    rw [hx]
    rw [if_neg (by positivity), if_neg (by rw [two_pow_and_pred]; simp)]
    rw [ih (cur ^^^ 1 <<< t) (i + 1)]
    simp [Nat.size_pow]
    rfl

/-- Claim C2: For every dimension `d ≥ 1` and every transition sequence whose
elements all lie in `[0, d)`, converting to vertices and back is the
identity: `transition_to_vertex` succeeds, and `vertex_to_transition` of its
result returns the original sequence. -/
theorem transitions_roundtrip (seq : List Nat) (dimension : Nat)
    (hdim : 1 ≤ dimension) (hseq : ∀ t ∈ seq, t < dimension) :
    ∃ vs, transition_to_vertex seq dimension = .ok vs ∧ vertex_to_transition vs = .ok seq := by
  refine ⟨0 :: pathFrom 0 seq, ?_, ?_⟩
  · unfold transition_to_vertex
    rw [t2vAux_ok dimension seq 0 hseq]
    rfl
  · unfold vertex_to_transition
    rcases seq with _ | ⟨t, rest⟩
    · rfl
    · rw [if_neg (by
        rw [List.length_cons, pathFrom_length]
        simp)]
      exact v2tAux_path (t :: rest) 0 0

/-- Witness for **C2** at `seq = [0, 1, 2, 0]`, `dimension = 3` (the spec's
concrete scenario: the vertex sequence is `[0, 1, 3, 7, 6]`). -/
theorem transitions_roundtrip_witness :
    (1 ≤ 3 ∧ ∀ t ∈ [0, 1, 2, 0], t < 3) ∧
    ∃ vs, transition_to_vertex [0, 1, 2, 0] 3 = .ok vs ∧
      vertex_to_transition vs = .ok [0, 1, 2, 0] :=
  ⟨⟨by decide, by decide⟩, transitions_roundtrip [0, 1, 2, 0] 3 (by decide) (by decide)⟩

/-- Claim C9: The per-bit counter `count_unmarked` and the popcount-based
`count_unmarked_fast` agree on every well-formed `HypercubeBitmap`, both
computing `2 ^ n` minus the number of set bits across all words; the bitmap of
every `SnakeNode` is well formed and the node's fitness is that same count. -/
theorem count_unmarked_eq_fast :
    (∀ dimension ws, WFBitmap dimension ws →
      count_unmarked dimension ws = count_unmarked_fast dimension ws ∧
      count_unmarked dimension ws = 2 ^ dimension - (ws.map popcount).sum) ∧
    (∀ seq dimension, (∀ t ∈ seq, t < dimension) →
      WFBitmap dimension (initializeBitmap seq dimension) ∧
      fitness seq dimension = count_unmarked_fast dimension (initializeBitmap seq dimension)) := by
  constructor
  · intro dimension ws hwf
    have h := count_unmarked_of_WF dimension ws hwf
    exact ⟨by rw [h]; rfl, h⟩
  · intro seq dimension hseq
    have hwf := WFBitmap_initializeBitmap seq dimension hseq
    refine ⟨hwf, ?_⟩
    have h := count_unmarked_of_WF dimension _ hwf
    rw [show fitness seq dimension = count_unmarked dimension (initializeBitmap seq dimension)
      from rfl, h]
    rfl

/-- Witness for **C9** on the concrete bitmap `[5]` of dimension 3 (bits 0 and
2 set: 6 free vertices) and the node `([0], 2)`. -/
theorem count_unmarked_eq_fast_witness :
    (WFBitmap 3 [5] ∧
      count_unmarked 3 [5] = count_unmarked_fast 3 [5] ∧
      count_unmarked 3 [5] = 2 ^ 3 - ([5].map popcount).sum) ∧
    ((∀ t ∈ [0], t < 2) ∧
      WFBitmap 2 (initializeBitmap [0] 2) ∧
      fitness [0] 2 = count_unmarked_fast 2 (initializeBitmap [0] 2)) :=
  have hwf : WFBitmap 3 [5] := ⟨by decide, by decide, by decide⟩
  ⟨⟨hwf, count_unmarked_eq_fast.1 3 [5] hwf⟩,
   ⟨by decide, count_unmarked_eq_fast.2 [0] 2 (by decide)⟩⟩

theorem mkSnakeNode_ok_iff (seq : List Nat) (dimension : Nat) :
    (∃ n, mkSnakeNode seq dimension = .ok n ∧
        n.transition_sequence = seq ∧ n.dimension = dimension) ↔
      (1 ≤ dimension ∧ ∀ t ∈ seq, t < dimension) := by
  constructor
  · rintro ⟨n, hok, hseq, hdim⟩
    unfold mkSnakeNode at hok
    by_cases h1 : dimension < 1
    · rw [if_pos h1] at hok
      exact absurd hok (by simp)
    · rw [if_neg h1] at hok
      rcases hfind : seq.find? (fun t => decide (dimension ≤ t)) with _ | t
      · rw [hfind] at hok
        refine ⟨by omega, fun t ht => ?_⟩
        have := List.find?_eq_none.mp hfind t ht
        simp only [decide_eq_true_eq] at this
        omega
      · rw [hfind] at hok
        exact absurd hok (by simp)
  · rintro ⟨h1, h2⟩
    refine ⟨⟨seq, dimension⟩, ?_, rfl, rfl⟩
    unfold mkSnakeNode
    rw [if_neg (by omega)]
    have hfind : seq.find? (fun t => decide (dimension ≤ t)) = none := by
      rw [List.find?_eq_none]
      intro t ht
      simp only [decide_eq_true_eq]
      have := h2 t ht
      omega
    rw [hfind]

/-- Claim C8: `SnakeNode` construction succeeds — storing the sequence and
dimension unchanged — exactly when the dimension is at least 1 and every
transition lies in `[0, dimension)`; in particular `SnakeNode([0,5], 3)` fails
with a transition-out-of-range error. -/
theorem mkSnakeNode_spec :
    (∀ seq dimension, (∃ n, mkSnakeNode seq dimension = .ok n ∧
        n.transition_sequence = seq ∧ n.dimension = dimension) ↔
      (1 ≤ dimension ∧ ∀ t ∈ seq, t < dimension)) ∧
    mkSnakeNode [0, 5] 3 = .error (.transitionOutOfRange 5) :=
  ⟨mkSnakeNode_ok_iff, rfl⟩

/-- Witness for **C8**: `([0], 2)` is accepted. -/
theorem mkSnakeNode_spec_witness :
    (1 ≤ 2 ∧ ∀ t ∈ [0], t < 2) ∧
    ∃ n, mkSnakeNode [0] 2 = .ok n ∧ n.transition_sequence = [0] ∧ n.dimension = 2 :=
  ⟨⟨by decide, by decide⟩, (mkSnakeNode_spec.1 [0] 2).mpr ⟨by decide, by decide⟩⟩

/-- Claim C5: For every valid `SnakeNode` and every dimension `d` with
`can_extend d`, the child has length exactly one more than the parent and
fitness at most the parent's. -/
theorem create_child_length_fitness (n : SnakeNode) (d : Nat)
    (hdim : 1 ≤ n.dimension) (hseq : ∀ t ∈ n.transition_sequence, t < n.dimension)
    (hext : n.canExtend d = true) :
    ∃ c, n.createChild d = some c ∧ c.get_length = n.get_length + 1 ∧
      nodeFitness c ≤ nodeFitness n := by
  have hd := can_extend_lt _ _ _ hext
  refine ⟨⟨n.transition_sequence ++ [d], n.dimension⟩, ?_, ?_, ?_⟩
  · unfold SnakeNode.createChild create_child
    have hext' : can_extend n.transition_sequence n.dimension d = true := hext
    rw [if_pos hext']
    rfl
  · simp [SnakeNode.get_length]
  · unfold nodeFitness
    exact fitness_le_of_append _ _ _ hseq hd

/-- Witness for **C5** at the node `([0], 2)` extended by dimension 1. -/
theorem create_child_length_fitness_witness :
    (1 ≤ (⟨[0], 2⟩ : SnakeNode).dimension ∧
      (∀ t ∈ (⟨[0], 2⟩ : SnakeNode).transition_sequence, t < (⟨[0], 2⟩ : SnakeNode).dimension) ∧
      (⟨[0], 2⟩ : SnakeNode).canExtend 1 = true) ∧
    ∃ c, (⟨[0], 2⟩ : SnakeNode).createChild 1 = some c ∧
      c.get_length = (⟨[0], 2⟩ : SnakeNode).get_length + 1 ∧
      nodeFitness c ≤ nodeFitness (⟨[0], 2⟩ : SnakeNode) :=
  ⟨⟨by decide, by decide, by decide⟩,
   create_child_length_fitness ⟨[0], 2⟩ 1 (by decide) (by decide) (by decide)⟩

/-! ## The snake validator -/

/-- Claim C3: `validate_snake` returns true exactly when the sequence is shorter
than 2, or every consecutive pair has Hamming distance exactly 1 and every
non-consecutive pair (index distance ≥ 2) has Hamming distance > 1; a
consecutive violation is always reported in preference to a non-consecutive
one, and the returned reason carries the offending index pair and its measured
distance. -/
theorem validate_snake_spec (vs : List Nat) :
    ((validate_snake vs).1 = true ↔
      (vs.length < 2 ∨
        ((∀ i, i + 1 < vs.length → hamming_distance (vs.getD i 0) (vs.getD (i + 1) 0) = 1) ∧
         (∀ j i, j + 2 ≤ i → i < vs.length → 1 < hamming_distance (vs.getD i 0) (vs.getD j 0))))) ∧
    (∀ i j d, (validate_snake vs).2 = .consecutiveViolation i j d →
      (validate_snake vs).1 = false ∧ j = i + 1 ∧ i + 1 < vs.length ∧
      d = hamming_distance (vs.getD i 0) (vs.getD (i + 1) 0) ∧ d ≠ 1) ∧
    (∀ j i d, (validate_snake vs).2 = .nonConsecutiveViolation j i d →
      (validate_snake vs).1 = false ∧ j + 2 ≤ i ∧ i < vs.length ∧
      d = hamming_distance (vs.getD i 0) (vs.getD j 0) ∧ d ≤ 1 ∧
      (∀ i', i' + 1 < vs.length → hamming_distance (vs.getD i' 0) (vs.getD (i' + 1) 0) = 1)) := by
  by_cases hlen : vs.length < 2
  · refine ⟨?_, ?_, ?_⟩
    · simp [validate_snake, if_pos hlen, hlen]
    · intro i j d h
      simp only [validate_snake, if_pos hlen] at h
      exact absurd h (by simp)
    · intro j i d h
      simp only [validate_snake, if_pos hlen] at h
      exact absurd h (by simp)
  · unfold validate_snake
    rw [if_neg hlen]
    split
    next i0 d0 heq =>
      obtain ⟨x, hxmem, hxeq⟩ := List.exists_of_findSome?_eq_some heq
      have hxlt : x < vs.length - 1 := List.mem_range.mp hxmem
      by_cases hne : hamming_distance (vs.getD x 0) (vs.getD (x + 1) 0) ≠ 1
      · rw [if_pos hne] at hxeq
        have hx : x = i0 ∧ hamming_distance (vs.getD x 0) (vs.getD (x + 1) 0) = d0 := by
          have := Option.some.inj hxeq
          exact ⟨congrArg Prod.fst this, congrArg Prod.snd this⟩
        obtain ⟨hxi, hxd⟩ := hx
        subst hxi
        refine ⟨?_, ?_, ?_⟩
        · simp only [Bool.false_eq_true, false_iff]
          rintro (h | ⟨hcons, _⟩)
          · omega
          · exact hne (hcons x (by omega))
        · intro i j d h
          have hinj := SnakeReason.consecutiveViolation.inj h
          obtain ⟨hi, hj, hd⟩ := hinj
          subst hi
          subst hj
          subst hd
          exact ⟨rfl, rfl, by omega, hxd.symm, fun hc => hne (by rw [hxd, hc])⟩
        · intro j i d h
          exact absurd h (by simp)
      · rw [if_neg hne] at hxeq
        exact absurd hxeq (by simp)
    next hc =>
      have hcons : ∀ i, i + 1 < vs.length →
          hamming_distance (vs.getD i 0) (vs.getD (i + 1) 0) = 1 := by
        intro i hi
        have h := List.findSome?_eq_none_iff.mp hc i (List.mem_range.mpr (by omega))
        by_contra hne
        rw [if_pos hne] at h
        exact absurd h (by simp)
      split
      next j0 i0 d0 heq =>
        obtain ⟨x, hxmem, hxeq⟩ := List.exists_of_findSome?_eq_some heq
        have hxlt : x < vs.length := List.mem_range.mp hxmem
        by_cases hx2 : 2 ≤ x
        · rw [if_pos hx2] at hxeq
          obtain ⟨y, hymem, hyeq⟩ := List.exists_of_findSome?_eq_some hxeq
          have hylt : y < x - 1 := List.mem_range.mp hymem
          by_cases hle : hamming_distance (vs.getD x 0) (vs.getD y 0) ≤ 1
          · rw [if_pos hle] at hyeq
            have hinj := Option.some.inj hyeq
            have hyj : y = j0 := congrArg Prod.fst hinj
            have hxi : x = i0 := congrArg Prod.fst (congrArg Prod.snd hinj)
            have hdd : hamming_distance (vs.getD x 0) (vs.getD y 0) = d0 :=
              congrArg Prod.snd (congrArg Prod.snd hinj)
            subst hyj
            subst hxi
            refine ⟨?_, ?_, ?_⟩
            · simp only [Bool.false_eq_true, false_iff]
              rintro (h | ⟨_, hnc⟩)
              · omega
              · have := hnc y x (by omega) hxlt
                omega
            · intro i j d h
              exact absurd h (by simp)
            · intro j i d h
              have hinj2 := SnakeReason.nonConsecutiveViolation.inj h
              obtain ⟨hj, hi, hd⟩ := hinj2
              subst hj
              subst hi
              subst hd
              exact ⟨rfl, by omega, hxlt, hdd.symm, by omega, hcons⟩
          · rw [if_neg hle] at hyeq
            exact absurd hyeq (by simp)
        · rw [if_neg hx2] at hxeq
          exact absurd hxeq (by simp)
      next hnc =>
        have houter : ∀ j i, j + 2 ≤ i → i < vs.length →
            1 < hamming_distance (vs.getD i 0) (vs.getD j 0) := by
          intro j i hji hilt
          have h := List.findSome?_eq_none_iff.mp hnc i (List.mem_range.mpr hilt)
          rw [if_pos (by omega)] at h
          have h2 := List.findSome?_eq_none_iff.mp h j (List.mem_range.mpr (by omega))
          by_contra hle
          rw [if_pos (by omega)] at h2
          exact absurd h2 (by simp)
        refine ⟨?_, ?_, ?_⟩
        · simp only [true_iff]
          exact Or.inr ⟨hcons, houter⟩
        · intro i j d h
          exact absurd h (by simp)
        · intro j i d h
          exact absurd h (by simp)

/-! ## Canonical form preservation -/

/-- The running maximum tracked by `is_canonical`'s scan. -/
def runMax (s : List Nat) (m : Nat) : Nat :=
  s.foldl (fun acc d => if d = acc + 1 then d else acc) m

theorem canonScan_append (s : List Nat) (d : Nat) : ∀ m : Nat,
    canonScan (s ++ [d]) m = (canonScan s m && ! decide (runMax s m + 1 < d)) := by
  induction s with
  | nil =>
    intro m
    rw [show canonScan ([] ++ [d]) m =
      (if m + 1 < d then false else canonScan [] (if d = m + 1 then d else m)) from rfl]
    by_cases h : m + 1 < d
    · rw [if_pos h]
      simp [canonScan, runMax, h]
    · rw [if_neg h]
      simp [canonScan, runMax, h]
  | cons a s ih =>
    intro m
    rw [List.cons_append]
    rw [show canonScan (a :: (s ++ [d])) m =
      (if m + 1 < a then false else canonScan (s ++ [d]) (if a = m + 1 then a else m)) from rfl]
    rw [show canonScan (a :: s) m =
      (if m + 1 < a then false else canonScan s (if a = m + 1 then a else m)) from rfl]
    rw [show runMax (a :: s) m = runMax s (if a = m + 1 then a else m) from rfl]
    by_cases h : m + 1 < a
    · rw [if_pos h, if_pos h]
      simp
    · rw [if_neg h, if_neg h]
      exact ih _

theorem runMax_eq_foldl_max : ∀ (s : List Nat) (m : Nat), canonScan s m = true →
    runMax s m = s.foldl Nat.max m := by
  intro s
  induction s with
  | nil => intro m _; rfl
  | cons a s ih =>
    intro m hscan
    rw [show canonScan (a :: s) m =
      (if m + 1 < a then false else canonScan s (if a = m + 1 then a else m)) from rfl] at hscan
    by_cases h : m + 1 < a
    · rw [if_pos h] at hscan
      exact absurd hscan (by simp)
    · rw [if_neg h] at hscan
      rw [show runMax (a :: s) m = runMax s (if a = m + 1 then a else m) from rfl,
          List.foldl_cons, ih _ hscan]
      congr 1
      by_cases ha : a = m + 1
      · rw [if_pos ha]
        subst ha
        exact (Nat.max_eq_right (by omega)).symm
      · rw [if_neg ha]
        exact (Nat.max_eq_left (by omega)).symm

theorem foldl_max_le : ∀ (s : List Nat) (m x : Nat), x ∈ s ∨ x ≤ m → x ≤ s.foldl Nat.max m := by
  intro s
  induction s with
  | nil =>
    intro m x h
    rcases h with h | h
    · simp at h
    · exact h
  | cons a s ih =>
    intro m x h
    rw [List.foldl_cons]
    rcases h with h | h
    · rcases List.mem_cons.mp h with h | h
      · exact ih _ x (Or.inr (by rw [h]; exact Nat.le_max_right m a))
      · exact ih _ x (Or.inl h)
    · exact ih _ x (Or.inr (le_trans h (Nat.le_max_left m a)))

theorem natMax_zero_left (n : Nat) : Nat.max 0 n = n := by
  simp [Nat.max_def]

theorem is_canonical_append (s : List Nat) (d : Nat)
    (hc : is_canonical s = true) (hd : d ∈ get_legal_next_dimensions s) :
    is_canonical (s ++ [d]) = true := by
  rcases s with _ | ⟨h0, s0⟩
  · have hd0 : d = 0 := by simpa [get_legal_next_dimensions] using hd
    subst hd0
    rfl
  · have hh0 : h0 = 0 := by
      rw [show is_canonical (h0 :: s0) =
        (if h0 ≠ 0 then false else canonScan (h0 :: s0) 0) from rfl] at hc
      by_cases h : h0 ≠ 0
      · rw [if_pos h] at hc
        exact absurd hc (by simp)
      · omega
    have hd2 : d ∈ (h0 :: s0).dedup ++ [(h0 :: s0).foldl Nat.max 0 + 1] := by
      unfold get_legal_next_dimensions at hd
      exact (List.perm_insertionSort _ _).mem_iff.mp hd
    have hc2 : canonScan (h0 :: s0) 0 = true := by
      rw [show is_canonical (h0 :: s0) =
        (if h0 ≠ 0 then false else canonScan (h0 :: s0) 0) from rfl, if_neg (by omega)] at hc
      exact hc
    rw [show is_canonical ((h0 :: s0) ++ [d]) =
      (if h0 ≠ 0 then false else canonScan ((h0 :: s0) ++ [d]) 0) from rfl, if_neg (by omega)]
    rw [canonScan_append, hc2]
    simp only [Bool.true_and, Bool.not_eq_true', decide_eq_false_iff_not]
    rw [runMax_eq_foldl_max _ _ hc2]
    rw [List.foldl_cons, natMax_zero_left h0]
    rcases List.mem_append.mp hd2 with h | h
    · have hle2 := foldl_max_le (h0 :: s0) 0 d (Or.inl (List.mem_dedup.mp h))
      rw [List.foldl_cons, natMax_zero_left h0] at hle2
      omega
    · have hdm := List.mem_singleton.mp h
      rw [List.foldl_cons, natMax_zero_left h0] at hdm
      omega

/-! ## Engine frontier membership -/

theorem mem_expandLevel (dimension : Nat) (level : List (List Nat)) (c : List Nat) :
    c ∈ expandLevel dimension level ↔
      ∃ s ∈ level, ∃ d ∈ get_legal_next_dimensions s,
        can_extend s dimension d = true ∧ c = s ++ [d] := by
  unfold expandLevel
  rw [List.mem_flatMap]
  constructor
  · rintro ⟨s, hs, hc⟩
    rcases List.mem_filterMap.mp hc with ⟨d, hd, hcd⟩
    unfold create_child at hcd
    by_cases h : can_extend s dimension d = true
    · rw [if_pos h] at hcd
      exact ⟨s, hs, d, hd, h, (Option.some.inj hcd).symm⟩
    · rw [if_neg h] at hcd
      exact absurd hcd (by simp)
  · rintro ⟨s, hs, d, hd, hext, rfl⟩
    refine ⟨s, hs, List.mem_filterMap.mpr ⟨d, hd, ?_⟩⟩
    unfold create_child
    rw [if_pos hext]

theorem mem_pruneByFitness (dimension cap : Nat) (nodes : List (List Nat)) (x : List Nat)
    (h : x ∈ pruneByFitness dimension cap nodes) : x ∈ nodes := by
  unfold pruneByFitness at h
  by_cases hle : nodes.length ≤ cap
  · rwa [if_pos hle] at h
  · rw [if_neg hle] at h
    exact (List.perm_insertionSort _ _).mem_iff.mp (List.mem_of_mem_take h)

theorem mem_stepLevel (dimension cap : Nat) (level : List (List Nat)) (x : List Nat)
    (h : x ∈ stepLevel dimension cap level) : x ∈ expandLevel dimension level := by
  unfold stepLevel at h
  by_cases hc : cap < (expandLevel dimension level).length
  · rw [if_pos hc] at h
    exact mem_pruneByFitness _ _ _ _ h
  · rwa [if_neg hc] at h

/-- Claim C4: The empty sequence is canonical, appending any legal next dimension
preserves canonicity, and consequently every node in every frontier of the
pruned BFS engine is canonical. -/
theorem bfs_canonical :
    is_canonical [] = true ∧
    (∀ s d, is_canonical s = true → d ∈ get_legal_next_dimensions s →
      is_canonical (s ++ [d]) = true) ∧
    (∀ dimension cap k s, s ∈ frontierAt dimension cap k → is_canonical s = true) := by
  refine ⟨rfl, fun s d hc hd => is_canonical_append s d hc hd, ?_⟩
  intro dimension cap k
  induction k with
  | zero =>
    intro s hs
    simp only [frontierAt, List.mem_singleton] at hs
    rw [hs]
    rfl
  | succ k ih =>
    intro s hs
    have hmem := mem_stepLevel dimension cap _ s (by simpa only [frontierAt] using hs)
    rcases (mem_expandLevel dimension _ s).mp hmem with ⟨p, hp, d, hd, hext, rfl⟩
    exact is_canonical_append p d (ih p hp) hd

/-- Witness for **C4**: `[0]` with legal next dimension 1, and the frontier of
the dimension-2 engine at level 1. -/
theorem bfs_canonical_witness :
    (is_canonical [0] = true ∧ 1 ∈ get_legal_next_dimensions [0] ∧
      is_canonical [0, 1] = true) ∧
    ([0] ∈ frontierAt 2 100 1 ∧ is_canonical [0] = true) :=
  ⟨⟨by decide, by decide, bfs_canonical.2.1 [0] 1 (by decide) (by decide)⟩,
   ⟨by decide, bfs_canonical.2.2 2 100 1 [0] (by decide)⟩⟩

/-! ## Engine frontier invariant: lengths, ranges, distinct path vertices -/

theorem path_nodup_child (seq : List Nat) (dimension d : Nat)
    (hseq : ∀ t ∈ seq, t < dimension) (hnd : (0 :: pathFrom 0 seq).Nodup)
    (hext : can_extend seq dimension d = true) :
    (0 :: pathFrom 0 (seq ++ [d])).Nodup := by
  rw [pathFrom_append_single]
  have hnm := can_extend_not_marked seq dimension d hseq hext
  have hnp : (compute_current_vertex seq ^^^ 1 <<< d) ∉ 0 :: pathFrom 0 seq :=
    fun hmem => hnm (path_subset_marked seq dimension _ hmem)
  rw [show (0 :: (pathFrom 0 seq ++ [List.foldl (fun v t => v ^^^ 1 <<< t) 0 seq ^^^ 1 <<< d])) =
      ((0 :: pathFrom 0 seq) ++ [List.foldl (fun v t => v ^^^ 1 <<< t) 0 seq ^^^ 1 <<< d])
    from rfl]
  rw [List.nodup_append]
  refine ⟨hnd, List.nodup_singleton _, ?_⟩
  intro a ha hb
  rw [List.mem_singleton] at hb
  subst hb
  exact hnp ha

/-- The invariant carried by every BFS frontier at level `k`. -/
def GoodLevel (dimension k : Nat) (level : List (List Nat)) : Prop :=
  ∀ s ∈ level, s.length = k ∧ (∀ t ∈ s, t < dimension) ∧ (0 :: pathFrom 0 s).Nodup

theorem GoodLevel_step (dimension cap k : Nat) (level : List (List Nat))
    (hg : GoodLevel dimension k level) :
    GoodLevel dimension (k + 1) (stepLevel dimension cap level) := by
  intro s hs
  rcases (mem_expandLevel dimension _ s).mp (mem_stepLevel dimension cap _ s hs) with
    ⟨p, hp, d, hd, hext, rfl⟩
  obtain ⟨hlen, hlt, hnd⟩ := hg p hp
  have hdlt := can_extend_lt p dimension d hext
  exact ⟨by rw [List.length_append, hlen]; rfl, seq_append_lt p dimension d hlt hdlt,
    path_nodup_child p dimension d hlt hnd hext⟩

theorem GoodLevel_initial (dimension : Nat) : GoodLevel dimension 0 [[]] := by
  intro s hs
  rw [List.mem_singleton] at hs
  subst hs
  exact ⟨rfl, by simp, by simp [pathFrom]⟩

theorem GoodLevel_frontierAt (dimension cap k : Nat) :
    GoodLevel dimension k (frontierAt dimension cap k) := by
  induction k with
  | zero => exact GoodLevel_initial dimension
  | succ k ih => exact GoodLevel_step dimension cap k _ ih

/-- A nonempty frontier at level `k` forces `k + 1 ≤ 2 ^ dimension`: the path
of any node consists of `k + 1` pairwise distinct vertices of `Q_dimension`. -/
theorem GoodLevel_empty (dimension k : Nat) (level : List (List Nat))
    (hg : GoodLevel dimension k level) (hk : 2 ^ dimension ≤ k) : level = [] := by
  rcases level with _ | ⟨s, rest⟩
  · rfl
  · exfalso
    obtain ⟨hlen, hlt, hnd⟩ := hg s (List.mem_cons_self s rest)
    have hsub : ∀ v ∈ 0 :: pathFrom 0 s, v < 2 ^ dimension := by
      intro v hv
      rcases List.mem_cons.mp hv with h | h
      · rw [h]; positivity
      · exact pathFrom_all_lt dimension s 0 (by positivity) hlt v h
    have hcard : (0 :: pathFrom 0 s).length ≤ 2 ^ dimension := by
      have h1 : (0 :: pathFrom 0 s).toFinset.card = (0 :: pathFrom 0 s).length :=
        List.toFinset_card_of_nodup hnd
      have h2 : (0 :: pathFrom 0 s).toFinset ⊆ Finset.range (2 ^ dimension) := by
        intro v hv
        rw [Finset.mem_range]
        exact hsub v (List.mem_toFinset.mp hv)
      have h3 := Finset.card_le_card h2
      rw [h1, Finset.card_range] at h3
      exact h3
    rw [List.length_cons, pathFrom_length, hlen] at hcard
    omega

/-! ## Loop lemmas for the BFS engine -/

theorem bfsLoop_succ (dimension cap fuel : Nat) (level : List (List Nat))
    (best : Option (List Nat)) :
    bfsLoop dimension cap (fuel + 1) level best =
      if level.isEmpty then best
      else bfsLoop dimension cap fuel (stepLevel dimension cap level)
        (updateBest best (expandLevel dimension level)) := rfl

theorem bfsLoop_nil (dimension cap fuel : Nat) (best : Option (List Nat)) :
    bfsLoop dimension cap (fuel + 1) [] best = best := by
  rw [bfsLoop_succ]
  rfl

/-- Once the invariant holds, any two sufficiently large fuels give the same
result: the loop reaches an empty frontier in at most `2 ^ dimension - k`
more iterations. -/
theorem bfsLoop_stable : ∀ (m dimension cap k : Nat) (level : List (List Nat))
    (best : Option (List Nat)), GoodLevel dimension k level → 2 ^ dimension ≤ k + m →
    ∀ f1 f2, m < f1 → m < f2 →
    bfsLoop dimension cap f1 level best = bfsLoop dimension cap f2 level best := by
  intro m
  induction m with
  | zero =>
    intro dimension cap k level best hg hk f1 f2 h1 h2
    have hnil : level = [] := GoodLevel_empty dimension k level hg (by omega)
    subst hnil
    rcases f1 with _ | f1
    · omega
    rcases f2 with _ | f2
    · omega
    rw [bfsLoop_nil, bfsLoop_nil]
  | succ m ih =>
    intro dimension cap k level best hg hk f1 f2 h1 h2
    rcases f1 with _ | f1
    · omega
    rcases f2 with _ | f2
    · omega
    by_cases hemp : level.isEmpty
    · have hnil : level = [] := by rwa [List.isEmpty_iff] at hemp
      subst hnil
      rw [bfsLoop_nil, bfsLoop_nil]
    · rw [bfsLoop_succ, bfsLoop_succ, if_neg (by simp [hemp]), if_neg (by simp [hemp])]
      exact ih dimension cap (k + 1) _ _ (GoodLevel_step dimension cap k level hg)
        (by omega) f1 f2 (by omega) (by omega)

theorem foldl_best_aux : ∀ (children : List (List Nat)) (b : List Nat), 1 ≤ b.length →
    ∃ c, children.foldl
        (fun b c => if (b.map List.length).getD 0 < c.length then some c else b) (some b) =
        some c ∧ 1 ≤ c.length := by
  intro children
  induction children with
  | nil => intro b h1; exact ⟨b, rfl, h1⟩
  | cons x cs ih =>
    intro b h1
    rw [List.foldl_cons]
    by_cases hcond : ((some b).map List.length).getD 0 < x.length
    · rw [if_pos hcond]
      refine ih x ?_
      simp only [Option.map_some', Option.getD_some] at hcond
      omega
    · rw [if_neg hcond]
      exact ih b h1

theorem updateBest_some (children : List (List Nat)) (b : List Nat) (h1 : 1 ≤ b.length) :
    ∃ c, updateBest (some b) children = some c ∧ 1 ≤ c.length :=
  foldl_best_aux children b h1

/-- Along the loop, a non-`None` best of length ≥ 1 is preserved. -/
theorem bfsLoop_result : ∀ (fuel dimension cap : Nat) (level : List (List Nat)) (b : List Nat),
    1 ≤ b.length →
    ∃ c, bfsLoop dimension cap fuel level (some b) = some c ∧ 1 ≤ c.length := by
  intro fuel
  induction fuel with
  | zero => intro dimension cap level b h1; exact ⟨b, rfl, h1⟩
  | succ fuel ih =>
    intro dimension cap level b h1
    rw [bfsLoop_succ]
    by_cases hemp : level.isEmpty
    · rw [if_pos hemp]
      exact ⟨b, rfl, h1⟩
    · rw [if_neg hemp]
      obtain ⟨c, hc, hc1⟩ := updateBest_some (expandLevel dimension level) b h1
      obtain ⟨e, he, he1⟩ := ih dimension cap (stepLevel dimension cap level) c hc1
      refine ⟨e, ?_, he1⟩
      rw [hc]
      exact he

/-- For any dimension ≥ 1 the empty node extends in dimension 0: vertex 1 is
unmarked in the origin-only bitmap. -/
theorem can_extend_nil (dimension : Nat) (hdim : 1 ≤ dimension) :
    can_extend [] dimension 0 = true := by
  unfold can_extend
  rw [if_pos (by omega)]
  rw [show compute_current_vertex [] = 0 from rfl]
  rw [getBit_initializeBitmap [] dimension (by simp) (0 ^^^ 1 <<< 0)]
  rw [show markedVertices [] dimension = [0] from rfl]
  decide

theorem expandLevel_initial (dimension : Nat) (hdim : 1 ≤ dimension) :
    expandLevel dimension [[]] = [[0]] := by
  unfold expandLevel
  simp only [List.flatMap_cons, List.flatMap_nil, List.append_nil]
  rw [show get_legal_next_dimensions [] = [0] from rfl]
  simp [create_child, can_extend_nil dimension hdim]

/-- Claim C7: For every dimension ≥ 1 and every capacity, `pruned_bfs_search`
returns a best node of length ≥ 1; the result is independent of any fuel
beyond `2 ^ dimension + 1` (the loop terminates naturally), and the frontier
at every level ≥ `2 ^ dimension` is empty. -/
theorem pruned_bfs_search_spec (dimension cap : Nat) (hdim : 1 ≤ dimension) :
    ∃ b, pruned_bfs_search dimension cap = some b ∧ 1 ≤ b.length ∧
      (∀ fuel, 2 ^ dimension + 1 ≤ fuel →
        bfsLoop dimension cap fuel [[]] none = some b) ∧
      (∀ k, 2 ^ dimension ≤ k → frontierAt dimension cap k = []) := by
  have hup : updateBest none (expandLevel dimension [[]]) = some [0] := by
    rw [expandLevel_initial dimension hdim]
    rfl
  obtain ⟨c, hc, hc1⟩ :=
    bfsLoop_result (2 ^ dimension) dimension cap (stepLevel dimension cap [[]]) [0] (by simp)
  refine ⟨c, ?_, hc1, ?_, ?_⟩
  · unfold pruned_bfs_search
    rw [bfsLoop_succ, if_neg (by simp), hup]
    exact hc
  · intro fuel hfuel
    rw [bfsLoop_stable (2 ^ dimension) dimension cap 0 [[]] none (GoodLevel_initial dimension)
      (by omega) fuel (2 ^ dimension + 1) (by omega) (by omega)]
    rw [bfsLoop_succ, if_neg (by simp), hup]
    exact hc
  · intro k hk
    exact GoodLevel_empty dimension k _ (GoodLevel_frontierAt dimension cap k) hk

/-- Witness for **C7** at dimension 2, capacity 100. -/
theorem pruned_bfs_search_spec_witness :
    1 ≤ 2 ∧ ∃ b, pruned_bfs_search 2 100 = some b ∧ 1 ≤ b.length ∧
      (∀ fuel, 2 ^ 2 + 1 ≤ fuel → bfsLoop 2 100 fuel [[]] none = some b) ∧
      (∀ k, 2 ^ 2 ≤ k → frontierAt 2 100 k = []) :=
  ⟨by decide, pruned_bfs_search_spec 2 100 (by decide)⟩

/-- Claim C10: Every node in every frontier of the engine has all transitions in
`[0, dimension)` and would be accepted by `SnakeNode` construction, even
though `get_legal_next_dimensions` always proposes the out-of-range value
`max_used + 1` for a nonempty sequence: `can_extend` is false for every
dimension outside `[0, dimension)`, so no out-of-range child is ever built. -/
theorem frontier_in_range (dimension cap : Nat) (hdim : 1 ≤ dimension) :
    (∀ k s, s ∈ frontierAt dimension cap k →
      (∀ t ∈ s, t < dimension) ∧ (mkSnakeNode s dimension).isOk = true) ∧
    (∀ s d, dimension ≤ d → can_extend s dimension d = false) ∧
    (∀ s : List Nat, s ≠ [] → s.foldl Nat.max 0 + 1 ∈ get_legal_next_dimensions s) := by
  refine ⟨?_, fun s d hd => can_extend_out_of_range s dimension d hd, ?_⟩
  · intro k s hs
    obtain ⟨_, hlt, _⟩ := GoodLevel_frontierAt dimension cap k s hs
    refine ⟨hlt, ?_⟩
    obtain ⟨n, hok, _, _⟩ := (mkSnakeNode_ok_iff s dimension).mpr ⟨hdim, hlt⟩
    rw [hok]
    rfl
  · intro s hs
    rcases s with _ | ⟨h0, s0⟩
    · exact absurd rfl hs
    · unfold get_legal_next_dimensions
      exact (List.perm_insertionSort _ _).mem_iff.mpr
        (List.mem_append_right _ (List.mem_singleton.mpr rfl))

/-- Witness for **C10** at dimension 2, capacity 5, level 1. -/
theorem frontier_in_range_witness :
    1 ≤ 2 ∧
    (([0] ∈ frontierAt 2 5 1) ∧ (∀ t ∈ [0], t < 2) ∧ (mkSnakeNode [0] 2).isOk = true) ∧
    (2 ≤ 3 ∧ can_extend [0] 2 3 = false) ∧
    (([0] : List Nat) ≠ [] ∧ ([0] : List Nat).foldl Nat.max 0 + 1 ∈ get_legal_next_dimensions [0]) :=
  ⟨by decide,
   ⟨by decide, (frontier_in_range 2 5 (by decide)).1 1 [0] (by decide)⟩,
   ⟨by decide, (frontier_in_range 2 5 (by decide)).2.1 [0] 3 (by decide)⟩,
   ⟨by decide, (frontier_in_range 2 5 (by decide)).2.2 [0] (by decide)⟩⟩

/-- Witness for **C3** on `[0, 1, 0]` (vertices 0 and 2 coincide). -/
theorem validate_snake_spec_witness :
    (validate_snake [0, 1, 0]).2 = SnakeReason.nonConsecutiveViolation 0 2 0 ∧
    ((validate_snake [0, 1, 0]).1 = false ∧ 0 + 2 ≤ 2 ∧ 2 < ([0, 1, 0] : List Nat).length ∧
      0 = hamming_distance (([0, 1, 0] : List Nat).getD 2 0) (([0, 1, 0] : List Nat).getD 0 0) ∧
      (0 : Nat) ≤ 1 ∧
      (∀ i', i' + 1 < ([0, 1, 0] : List Nat).length →
        hamming_distance (([0, 1, 0] : List Nat).getD i' 0)
          (([0, 1, 0] : List Nat).getD (i' + 1) 0) = 1)) :=
  ⟨by decide, (validate_snake_spec [0, 1, 0]).2.2 0 2 0 (by decide)⟩

/-! ## Flood fill from the current vertex -/

/-- An edge of the free subgraph: a hypercube edge both of whose endpoints are
unmarked in the bitmap. -/
def FreeEdge (bm : List Nat) (dimension u v : Nat) : Prop :=
  getBit bm u = false ∧ getBit bm v = false ∧ ∃ d, d < dimension ∧ v = u ^^^ 1 <<< d

/-- Reachability in the free subgraph. -/
def ReachableFree (bm : List Nat) (dimension s v : Nat) : Prop :=
  Relation.ReflTransGen (FreeEdge bm dimension) s v

/-- The flood fill immediately discards a marked start vertex and returns the
empty visited set. -/
theorem floodFill_marked_start (dimension : Nat) (bm : List Nat) (s fuel : Nat)
    (hfuel : 1 ≤ fuel) (hm : getBit bm s = true) :
    floodFillLoop dimension bm [] [s] fuel = [] := by
  rcases fuel with _ | f
  · omega
  · have h0 : ∀ g, floodFillLoop dimension bm [] [] g = [] := by
      intro g
      rcases g with _ | g
      · rfl
      · rfl
    simp only [floodFillLoop, hm, Bool.or_true, if_true]
    exact h0 f

/-- Claim C1: `count_unreachable_vertices` equals the number of free vertices not
reachable from the node's current vertex through the free subgraph (edges =
hypercube edges between two free vertices).  The current vertex is itself
marked, so no free vertex is reachable from it and both sides equal the free
count. -/
theorem count_unreachable_spec (seq : List Nat) (dimension fuel : Nat)
    (hdim : 1 ≤ dimension) (hseq : ∀ t ∈ seq, t < dimension) (hfuel : 1 ≤ fuel) :
    count_unreachable_vertices seq dimension fuel =
      Set.ncard { v | v < 2 ^ dimension ∧
        getBit (initializeBitmap seq dimension) v = false ∧
        ¬ ReachableFree (initializeBitmap seq dimension) dimension
            (compute_current_vertex seq) v } := by
  have hm := current_marked seq dimension hseq
  have hlhs : count_unreachable_vertices seq dimension fuel = fitness seq dimension := by
    unfold count_unreachable_vertices flood_fill_reachable
    rw [floodFill_marked_start dimension _ _ fuel hfuel hm]
    rfl
  have hset : { v | v < 2 ^ dimension ∧ getBit (initializeBitmap seq dimension) v = false ∧
      ¬ ReachableFree (initializeBitmap seq dimension) dimension (compute_current_vertex seq) v }
      = { v | v < 2 ^ dimension ∧ getBit (initializeBitmap seq dimension) v = false } := by
    ext v
    simp only [Set.mem_setOf_eq]
    constructor
    · rintro ⟨h1, h2, _⟩
      exact ⟨h1, h2⟩
    · rintro ⟨h1, h2⟩
      refine ⟨h1, h2, ?_⟩
      intro hreach
      rcases Relation.ReflTransGen.cases_head hreach with heq | ⟨u, hstep, _⟩
      · rw [← heq] at h2
        rw [hm] at h2
        exact absurd h2 (by simp)
      · have := hstep.1
        rw [hm] at this
        exact absurd this (by simp)
  rw [hlhs, hset]
  have hfin : { v | v < 2 ^ dimension ∧ getBit (initializeBitmap seq dimension) v = false }
      = ↑(((List.range (2 ^ dimension)).filter
          (fun v => ! getBit (initializeBitmap seq dimension) v)).toFinset) := by
    ext v
    simp only [Set.mem_setOf_eq, Finset.coe_sort_coe, List.coe_toFinset, Set.mem_setOf_eq,
      List.mem_filter, List.mem_range, Bool.not_eq_true']
  rw [hfin, Set.ncard_coe_Finset]
  rw [List.toFinset_card_of_nodup ((List.nodup_range _).filter _)]
  rfl

/-- Witness for **C1** at the node `([0, 1], 3)` with fuel 5. -/
theorem count_unreachable_spec_witness :
    (1 ≤ 3 ∧ (∀ t ∈ [0, 1], t < 3) ∧ 1 ≤ 5) ∧
    count_unreachable_vertices [0, 1] 3 5 =
      Set.ncard { v | v < 2 ^ 3 ∧ getBit (initializeBitmap [0, 1] 3) v = false ∧
        ¬ ReachableFree (initializeBitmap [0, 1] 3) 3 (compute_current_vertex [0, 1]) v } :=
  ⟨⟨by decide, by decide, by decide⟩,
   count_unreachable_spec [0, 1] 3 5 (by decide) (by decide) (by decide)⟩

/-! ## The seed-search invariant: the best snake never regresses -/

/-- Invariant of the seed-search state: the tracked maximum length is exactly
the best snake's length, and never below the seed's length. -/
def SeedInv (seedLen : Nat) (st : SeedState) : Prop :=
  st.best.length = st.maxLength ∧ seedLen ≤ st.maxLength

theorem seedFold_inv (seedLen : Nat) : ∀ (children : List (List Nat)) (st : SeedState),
    SeedInv seedLen st →
    SeedInv seedLen (children.foldl (fun s c =>
      if s.maxLength < c.length then { s with best := c, maxLength := c.length, noImprove := 0 }
      else { s with noImprove := s.noImprove + 1 }) st) := by
  intro children
  induction children with
  | nil => intro st h; exact h
  | cons c cs ih =>
    intro st h
    rw [List.foldl_cons]
    apply ih
    by_cases hc : st.maxLength < c.length
    · rw [if_pos hc]
      refine ⟨rfl, ?_⟩
      show seedLen ≤ c.length
      obtain ⟨h1, h2⟩ := h
      omega
    · rw [if_neg hc]
      exact ⟨h.1, h.2⟩

theorem seedUpdate_inv (seedLen : Nat) (children : List (List Nat)) (st : SeedState)
    (h : SeedInv seedLen st) : SeedInv seedLen (seedUpdate st children) :=
  seedFold_inv seedLen children st h

theorem seedLoop_inv (dimension cap maxLevels seedLen : Nat)
    (backtrack : List Nat → List (List Nat)) :
    ∀ (fuel : Nat) (st : SeedState), SeedInv seedLen st →
    SeedInv seedLen (seedLoop dimension cap maxLevels seedLen backtrack fuel st) := by
  intro fuel
  induction fuel with
  | zero => intro st h; exact h
  | succ fuel ih =>
    intro st h
    have hst1 : SeedInv seedLen (seedSt1 dimension st) :=
      seedUpdate_inv seedLen _ st h
    have hst2 : SeedInv seedLen (seedSt2 dimension cap backtrack st) :=
      ⟨hst1.1, hst1.2⟩
    have hst2r : SeedInv seedLen { seedSt2 dimension cap backtrack st with noImprove := 0 } :=
      ⟨hst2.1, hst2.2⟩
    simp only [seedLoop]
    repeat' split
    all_goals first
      | exact h
      | exact hst1
      | exact hst2
      | exact hst2r
      | exact ih _ hst1
      | exact ih _ hst2
      | exact ih _ hst2r
          · exact ih _ hst1

/-! ## Priming non-regression -/

theorem primeLoop_length (P : PrimeParams) (target : Nat) :
    ∀ (gas : Nat) (cur : List Nat) (curDim : Nat), target - curDim ≤ gas →
    cur.length ≤ (primeLoop P target cur curDim).length := by
  intro gas
  induction gas with
  | zero =>
    intro cur curDim hg
    unfold primeLoop
    rw [dif_neg (by omega)]
  | succ gas ih =>
    intro cur curDim hg
    unfold primeLoop
    by_cases h : curDim < target
    · rw [dif_pos h]
      rcases hmk : mkSnakeNode cur (curDim + 1) with e | node
      · dsimp only
        exact le_refl _
      · dsimp only
        rcases hsr : pruned_bfs_search_from_seed node (curDim + 1) (P.cap (curDim + 1))
            (if 14 ≤ curDim + 1 then 200000 else 50000) (P.fuel (curDim + 1))
            P.initSel P.backtrack with u | r
        · dsimp only
          exact le_refl _
        · rcases r with _ | ext
          · dsimp only
            exact le_refl _
          · dsimp only
            by_cases hlen : cur.length < ext.get_length
            · rw [if_pos hlen]
              have hrec := ih ext.transition_sequence (curDim + 1) (by omega)
              have hgl : ext.get_length = ext.transition_sequence.length := rfl
              omega
            · rw [if_neg hlen]
    · rw [dif_neg h]

/-- Claim C6: `pruned_bfs_search_from_seed` raises only on a dimension mismatch;
otherwise it returns a node strictly longer than the seed exactly when the
search recorded such an extension (`max_length > seed_length`), and `None`
("no extension found") when the best never moved past the seed's length.
Consequently `prime_search` always returns a sequence at least as long as its
seed. -/
theorem seed_search_prime_spec :
    (∀ (seed : SnakeNode) (dimension cap maxLevels fuel : Nat)
        (initSel : SnakeNode → List (List Nat)) (backtrack : List Nat → List (List Nat)),
      (seed.dimension ≠ dimension →
        pruned_bfs_search_from_seed seed dimension cap maxLevels fuel initSel backtrack =
          .error ()) ∧
      (∀ r, pruned_bfs_search_from_seed seed dimension cap maxLevels fuel initSel backtrack =
          .ok r →
        (∃ b, r = some b ∧ seed.get_length < b.get_length) ∨
        (r = none ∧ (seedLoop dimension cap maxLevels seed.get_length backtrack fuel
            ⟨initSel seed, seed.transition_sequence, seed.get_length, 0, 0⟩).maxLength =
          seed.get_length))) ∧
    (∀ (snake : List Nat) (target : Nat) (P : PrimeParams),
      snake.length ≤ (prime_search snake target P).length) := by
  constructor
  · intro seed dimension cap maxLevels fuel initSel backtrack
    constructor
    · intro hne
      unfold pruned_bfs_search_from_seed
      rw [if_pos hne]
    · intro r hr
      unfold pruned_bfs_search_from_seed at hr
      by_cases hne : seed.dimension ≠ dimension
      · rw [if_pos hne] at hr
        exact absurd hr (by simp)
      · rw [if_neg hne] at hr
        have hinv := seedLoop_inv dimension cap maxLevels seed.get_length backtrack fuel
          ⟨initSel seed, seed.transition_sequence, seed.get_length, 0, 0⟩
          ⟨rfl, le_refl _⟩
        have hr2 := Except.ok.inj hr
        by_cases hlt : seed.get_length <
            (seedLoop dimension cap maxLevels seed.get_length backtrack fuel
              ⟨initSel seed, seed.transition_sequence, seed.get_length, 0, 0⟩).maxLength
        · left
          refine ⟨⟨(seedLoop dimension cap maxLevels seed.get_length backtrack fuel
              ⟨initSel seed, seed.transition_sequence, seed.get_length, 0, 0⟩).best,
            dimension⟩, ?_, ?_⟩
          · rw [← hr2, if_pos hlt]
          · show seed.get_length <
              (seedLoop dimension cap maxLevels seed.get_length backtrack fuel
                ⟨initSel seed, seed.transition_sequence, seed.get_length, 0, 0⟩).best.length
            rw [hinv.1]
            exact hlt
        · right
          have h2 := hinv.2
          exact ⟨by rw [← hr2, if_neg hlt], by omega⟩
  · intro snake target P
    unfold prime_search
    by_cases h : target ≤ detect_dimension snake
    · rw [if_pos h]
    · rw [if_neg h]
      exact primeLoop_length P target (target - detect_dimension snake) snake
        (detect_dimension snake) (le_refl _)

/-- Witness for **C6**: a dimension mismatch raises, and `prime_search` never
shortens its seed. -/
theorem seed_search_prime_spec_witness :
    ((⟨[0], 2⟩ : SnakeNode).dimension ≠ 3 ∧
      pruned_bfs_search_from_seed ⟨[0], 2⟩ 3 10 10 5
        (fun s => [s.transition_sequence]) (fun _ => []) = .error ()) ∧
    ([0, 1] : List Nat).length ≤
      (prime_search [0, 1] 3
        ⟨fun _ => 10, fun _ => 5, fun s => [s.transition_sequence], fun _ => []⟩).length :=
  ⟨⟨by decide, (seed_search_prime_spec.1 ⟨[0], 2⟩ 3 10 10 5
      (fun s => [s.transition_sequence]) (fun _ => [])).1 (by decide)⟩,
   seed_search_prime_spec.2 [0, 1] 3
     ⟨fun _ => 10, fun _ => 5, fun s => [s.transition_sequence], fun _ => []⟩⟩
